import Mathlib

/-!
# Message-filter chain of `proxygen/lib/http/HTTPMessageFilters.h`

A shallow embedding of `HTTPMessageFilter`: the heap of handler objects is a
list indexed by address, raw pointers are `Option` addresses (`none` is
`nullptr`), `prev_` is the two-alternative variant of the source, and every
method invocation made through a pointer is recorded in a trace so that
"delivered exactly once, in order" can be stated.  Virtual calls may recurse
through the chain, so the interpreter takes a fuel argument.
-/

namespace Proxygen

/-! ## Data model, operations and predicates -/

/-- Address of a `HTTPTransaction::Handler` object (a filter or a terminal handler). -/
abbrev Addr := Nat

/-- Address of a `HTTPTransaction` object. -/
abbrev TxnAddr := Nat

/-- Identity of the `HTTPMessage` owned by a `std::unique_ptr<HTTPMessage>`. -/
abbrev HTTPMessage := Nat

/-- Identity of the buffer chain owned by a `std::unique_ptr<folly::IOBuf>`. -/
abbrev IOBuf := Nat

/-- Identity of the trailers owned by a `std::unique_ptr<HTTPHeaders>`. -/
abbrev HTTPHeaders := Nat

/-- Value of the `UpgradeProtocol` enumeration. -/
abbrev UpgradeProtocol := Nat

/-- Identity of the `HTTPException` passed by reference. -/
abbrev HTTPException := Nat

/-- The member `boost::variant<HTTPMessageFilter*, HTTPTransaction*> prev_`:
alternative 0 holds a filter pointer, alternative 1 a transaction pointer. -/
inductive Prev
  | filter (p : Option Addr)
  | txn (p : Option TxnAddr)
  deriving DecidableEq, Repr

/-- The index of the active alternative, `prev_.which()`. -/
def Prev.which : Prev → Nat
  | .filter _ => 0
  | .txn _ => 1

/-- The data members of `HTTPMessageFilter`. -/
structure HTTPMessageFilter where
  nextTransactionHandler_ : Option Addr
  prev_ : Prev
  nextElementIsPaused_ : Bool
  deriving DecidableEq, Repr

/-- The default member initialisers: `nextTransactionHandler_{nullptr}`,
`prev_ = static_cast<HTTPTransaction*>(nullptr)`, `nextElementIsPaused_{false}`. -/
def HTTPMessageFilter.init : HTTPMessageFilter :=
  ⟨none, Prev.txn none, false⟩

/-- An object reachable through a `HTTPTransaction::Handler*`: a filter node, or a
handler that is not a filter (the terminal handler, external to this file). -/
inductive Obj
  | filter (f : HTTPMessageFilter)
  | handler
  deriving DecidableEq, Repr

/-- The virtual methods of `HTTPTransaction::Handler` that `HTTPMessageFilter`
implements, with their arguments. -/
inductive Call
  | onHeadersComplete (msg : HTTPMessage)
  | onBody (chain : IOBuf)
  | onChunkHeader (length : Nat)
  | onChunkComplete
  | onTrailers (trailers : HTTPHeaders)
  | onEOM
  | onUpgrade (protocol : UpgradeProtocol)
  | onError (error : HTTPException)
  | setTransaction (txn : Option TxnAddr)
  | detachTransaction
  | onEgressPaused
  | onEgressResumed
  | onPushedTransaction (txn : Option TxnAddr)
  | onExTransaction (txn : Option TxnAddr)
  deriving DecidableEq, Repr

/-- One recorded method entry: a `Handler` method entered on the object at `a`,
`detachHandlerFromTransaction` entered on the filter at `a`, or
`setHandler(h)` called on the transaction at `t`. -/
inductive Ev
  | handler (a : Addr) (c : Call)
  | detachHandlerFromTransaction (a : Addr)
  | setHandler (t : TxnAddr) (h : Option Addr)
  deriving DecidableEq, Repr

/-- Ways an execution can fail to return: a failed `CHECK_NOTNULL`, a call
through a null pointer, a pointer to no object, a filter pointer that does not
point at a filter, and exhaustion of the interpreter's fuel. -/
inductive Fault
  | checkFailed
  | nullDeref
  | dangling
  | badCast
  | outOfFuel
  deriving DecidableEq, Repr

/-- The heap of handler objects together with the calls recorded so far. -/
structure World where
  heap : List Obj
  trace : List Ev
  deriving DecidableEq, Repr

/-- Append one entry to the trace. -/
def World.log (w : World) (e : Ev) : World :=
  { heap := w.heap, trace := w.trace ++ [e] }

/-- Write the members of the filter at address `a`. -/
def World.store (w : World) (a : Addr) (f : HTTPMessageFilter) : World :=
  { heap := w.heap.set a (Obj.filter f), trace := w.trace }

/-- The glog macro `CHECK_NOTNULL`: returns its argument, fatal on `nullptr`. -/
def CHECK_NOTNULL {α : Type} : Option α → Except Fault α
  | some x => Except.ok x
  | none => Except.error Fault.checkFailed

/-- Construction of a filter node: a fresh object with the default members. -/
def construct (w : World) : World :=
  { heap := w.heap ++ [Obj.filter HTTPMessageFilter.init], trace := w.trace }

/-- `setNextTransactionHandler(next)` on the filter at `a`. -/
def setNextTransactionHandler (a : Addr) (next : Option Addr) (w : World) :
    Except Fault World :=
  match w.heap[a]? with
  | none => Except.error Fault.dangling
  | some Obj.handler => Except.error Fault.badCast
  | some (Obj.filter f) =>
    match CHECK_NOTNULL next with
    | Except.error e => Except.error e
    | Except.ok n => Except.ok (w.store a { f with nextTransactionHandler_ := some n })

/-- `setPrevFilter(prev)` on the filter at `a`. -/
def setPrevFilter (a : Addr) (prev : Option Addr) (w : World) : Except Fault World :=
  match w.heap[a]? with
  | none => Except.error Fault.dangling
  | some Obj.handler => Except.error Fault.badCast
  | some (Obj.filter f) =>
    match CHECK_NOTNULL prev with
    | Except.error e => Except.error e
    | Except.ok p => Except.ok (w.store a { f with prev_ := Prev.filter (some p) })

/-- `setPrevTxn(prev)` on the filter at `a`. -/
def setPrevTxn (a : Addr) (prev : Option TxnAddr) (w : World) : Except Fault World :=
  match w.heap[a]? with
  | none => Except.error Fault.dangling
  | some Obj.handler => Except.error Fault.badCast
  | some (Obj.filter f) =>
    match CHECK_NOTNULL prev with
    | Except.error e => Except.error e
    | Except.ok p => Except.ok (w.store a { f with prev_ := Prev.txn (some p) })

/-- `getNextTransactionHandler()` on the filter at `a`. -/
def getNextTransactionHandler (a : Addr) (w : World) : Except Fault (Option Addr) :=
  match w.heap[a]? with
  | none => Except.error Fault.dangling
  | some Obj.handler => Except.error Fault.badCast
  | some (Obj.filter f) => Except.ok f.nextTransactionHandler_

/-- The virtual call `p->c(...)` through a `HTTPTransaction::Handler*` holding
address `a`.  On a filter the body is the one of `HTTPMessageFilter`: every
method but `detachTransaction` is `nextTransactionHandler_->c(...)` with no
null test; `detachTransaction` first nulls a transaction-tagged `prev_` and
forwards only when `nextTransactionHandler_` is non-null.  A handler that is
not a filter is external: the call is recorded and returns. -/
def callHandler : Nat → Addr → Call → World → Except Fault World
  | 0, _, _, _ => Except.error Fault.outOfFuel
  | fuel + 1, a, c, w =>
    match w.heap[a]? with
    | none => Except.error Fault.dangling
    | some Obj.handler => Except.ok (w.log (Ev.handler a c))
    | some (Obj.filter f) =>
      let w1 := w.log (Ev.handler a c)
      match c with
      | Call.onHeadersComplete msg =>
        match f.nextTransactionHandler_ with
        | none => Except.error Fault.nullDeref
        | some n => callHandler fuel n (Call.onHeadersComplete msg) w1
      | Call.onBody chain =>
        match f.nextTransactionHandler_ with
        | none => Except.error Fault.nullDeref
        | some n => callHandler fuel n (Call.onBody chain) w1
      | Call.onChunkHeader length =>
        match f.nextTransactionHandler_ with
        | none => Except.error Fault.nullDeref
        | some n => callHandler fuel n (Call.onChunkHeader length) w1
      | Call.onChunkComplete =>
        match f.nextTransactionHandler_ with
        | none => Except.error Fault.nullDeref
        | some n => callHandler fuel n Call.onChunkComplete w1
      | Call.onTrailers trailers =>
        match f.nextTransactionHandler_ with
        | none => Except.error Fault.nullDeref
        | some n => callHandler fuel n (Call.onTrailers trailers) w1
      | Call.onEOM =>
        match f.nextTransactionHandler_ with
        | none => Except.error Fault.nullDeref
        | some n => callHandler fuel n Call.onEOM w1
      | Call.onUpgrade protocol =>
        match f.nextTransactionHandler_ with
        | none => Except.error Fault.nullDeref
        | some n => callHandler fuel n (Call.onUpgrade protocol) w1
      | Call.onError error =>
        match f.nextTransactionHandler_ with
        | none => Except.error Fault.nullDeref
        | some n => callHandler fuel n (Call.onError error) w1
      | Call.setTransaction txn =>
        match f.nextTransactionHandler_ with
        | none => Except.error Fault.nullDeref
        | some n => callHandler fuel n (Call.setTransaction txn) w1
      | Call.detachTransaction =>
        let w2 :=
          if f.prev_.which = 1 then w1.store a { f with prev_ := Prev.txn none } else w1
        match f.nextTransactionHandler_ with
        | none => Except.ok w2
        | some n => callHandler fuel n Call.detachTransaction w2
      | Call.onEgressPaused =>
        match f.nextTransactionHandler_ with
        | none => Except.error Fault.nullDeref
        | some n => callHandler fuel n Call.onEgressPaused w1
      | Call.onEgressResumed =>
        match f.nextTransactionHandler_ with
        | none => Except.error Fault.nullDeref
        | some n => callHandler fuel n Call.onEgressResumed w1
      | Call.onPushedTransaction txn =>
        match f.nextTransactionHandler_ with
        | none => Except.error Fault.nullDeref
        | some n => callHandler fuel n (Call.onPushedTransaction txn) w1
      | Call.onExTransaction txn =>
        match f.nextTransactionHandler_ with
        | none => Except.error Fault.nullDeref
        | some n => callHandler fuel n (Call.onExTransaction txn) w1

/-- The non-virtual `detachHandlerFromTransaction()` called through a
`HTTPMessageFilter*` holding address `a`: with a filter-tagged `prev_` it
recurses into a non-null predecessor; with a transaction-tagged `prev_` that is
non-null it calls `setHandler(nullptr)` on the transaction and nulls `prev_`. -/
def detachHandlerFromTransaction : Nat → Addr → World → Except Fault World
  | 0, _, _ => Except.error Fault.outOfFuel
  | fuel + 1, a, w =>
    match w.heap[a]? with
    | none => Except.error Fault.dangling
    | some Obj.handler => Except.error Fault.badCast
    | some (Obj.filter f) =>
      let w1 := w.log (Ev.detachHandlerFromTransaction a)
      match f.prev_ with
      | Prev.filter prev =>
        match prev with
        | some p => detachHandlerFromTransaction fuel p w1
        | none => Except.ok w1
      | Prev.txn prev =>
        match prev with
        | some t => Except.ok ((w1.log (Ev.setHandler t none)).store a { f with prev_ := Prev.txn none })
        | none => Except.ok w1

/-- Forward wiring of a chain: every address of `addrs` holds a filter whose
`nextTransactionHandler_` is the next address of the list, the last one's is
`t`, and `t` holds a handler that is not a filter. -/
def fwdChain (h : List Obj) : List Addr → Addr → Bool
  | [], t => decide (h[t]? = some Obj.handler)
  | a :: rest, t =>
    match h[a]? with
    | some (Obj.filter f) =>
      decide (f.nextTransactionHandler_ = some (rest.headD t)) && fwdChain h rest t
    | _ => false

/-- A well-formed chain: forward wiring as in `fwdChain`, the first node's
`prev_` is `p`, and every other node's `prev_` is the filter pointer to its
predecessor in the list. -/
def wfChain (h : List Obj) : Prev → List Addr → Addr → Bool
  | _, [], t => decide (h[t]? = some Obj.handler)
  | p, a :: rest, t =>
    match h[a]? with
    | some (Obj.filter f) =>
      decide (f.nextTransactionHandler_ = some (rest.headD t)) && decide (f.prev_ = p)
        && wfChain h (Prev.filter (some a)) rest t
    | _ => false

/-- The entries recorded when call `c` enters each address of `addrs` in turn. -/
def delivered (addrs : List Addr) (c : Call) : List Ev :=
  addrs.map (fun a => Ev.handler a c)

/-- The heap after the first statement of `detachTransaction` ran on the object
at `a`: a transaction-tagged `prev_` is replaced by the null transaction pointer. -/
def nullPrev (h : List Obj) (a : Addr) : List Obj :=
  match h[a]? with
  | some (Obj.filter f) =>
    if f.prev_.which = 1 then h.set a (Obj.filter { f with prev_ := Prev.txn none }) else h
  | _ => h

/-- The `prev_` member of the filter at `a`, if `a` holds a filter. -/
def prevOf (h : List Obj) (a : Addr) : Option Prev :=
  match h[a]? with
  | some (Obj.filter f) => some f.prev_
  | _ => none

/-- The `nextTransactionHandler_` member of the filter at `a`, if `a` holds a filter. -/
def nextOf (h : List Obj) (a : Addr) : Option (Option Addr) :=
  match h[a]? with
  | some (Obj.filter f) => some f.nextTransactionHandler_
  | _ => none

/-- The `nextElementIsPaused_` member of the filter at `a`, if `a` holds a filter. -/
def pausedOf (h : List Obj) (a : Addr) : Option Bool :=
  match h[a]? with
  | some (Obj.filter f) => some f.nextElementIsPaused_
  | _ => none

/-- Backward wiring seen from a node: the list starts at that node and follows
`prev_` filter pointers; the last address of the list has `prev_ = p`. -/
def bwdChain (h : List Obj) (p : Prev) : List Addr → Bool
  | [] => false
  | [a] =>
    match h[a]? with
    | some (Obj.filter f) => decide (f.prev_ = p)
    | _ => false
  | a :: b :: rest =>
    match h[a]? with
    | some (Obj.filter f) =>
      decide (f.prev_ = Prev.filter (some b)) && bwdChain h p (b :: rest)
    | _ => false

/-- Two filters that both hold the transaction 7 in `prev_` (each was given it
with `setPrevTxn`) in front of a terminal handler at address 2: forward wiring
`0 → 1 → handler(2)`, no filter-tagged backward reference. -/
def twoTxnHeap : List Obj :=
  [Obj.filter ⟨some 1, Prev.txn (some 7), false⟩,
   Obj.filter ⟨some 2, Prev.txn (some 7), false⟩,
   Obj.handler]

/-- The entries recorded when `detachHandlerFromTransaction` enters each
address of `addrs` in turn. -/
def detachedAt (addrs : List Addr) : List Ev :=
  addrs.map Ev.detachHandlerFromTransaction

/-- The calls made on the transaction held by a transaction-tagged `prev_`. -/
def txnCalls : Option TxnAddr → List Ev
  | some T => [Ev.setHandler T none]
  | none => []

/-- Two filters at addresses 0 and 1 and a terminal handler at address 2,
wired as `T(7) → 0 → 1 → handler(2)`. -/
def exampleHeap : List Obj :=
  [Obj.filter ⟨some 1, Prev.txn (some 7), false⟩,
   Obj.filter ⟨some 2, Prev.filter (some 0), false⟩,
   Obj.handler]

/-- The heap before any wiring: two freshly constructed filters and the handler. -/
def unwiredHeap : List Obj :=
  (construct (construct ⟨[], []⟩)).heap ++ [Obj.handler]

/-- The setter calls that assemble `exampleHeap` from `unwiredHeap`. -/
def wireExample : Except Fault World :=
  match setNextTransactionHandler 0 (some 1) ⟨unwiredHeap, []⟩ with
  | Except.error e => Except.error e
  | Except.ok w1 =>
    match setNextTransactionHandler 1 (some 2) w1 with
    | Except.error e => Except.error e
    | Except.ok w2 =>
      match setPrevTxn 0 (some 7) w2 with
      | Except.error e => Except.error e
      | Except.ok w3 => setPrevFilter 1 (some 0) w3

/-- What one heap cell may look like after a detach operation: unchanged, or a
filter whose `prev_` held a non-null transaction pointer and now holds the null
transaction pointer, every other member unchanged. -/
def FrameAt (o o2 : Option Obj) : Prop :=
  o2 = o ∨ ∃ f T, o = some (Obj.filter f) ∧ f.prev_ = Prev.txn (some T) ∧
    o2 = some (Obj.filter { f with prev_ := Prev.txn none })

/-- Cell-wise `FrameAt` between two heaps. -/
def Frame (h h2 : List Obj) : Prop :=
  ∀ b : Addr, FrameAt h[b]? h2[b]?

/-- The operations a client can perform on the objects of the heap. -/
inductive Op
  | construct
  | setNextTransactionHandler (a : Addr) (next : Option Addr)
  | setPrevFilter (a : Addr) (prev : Option Addr)
  | setPrevTxn (a : Addr) (prev : Option TxnAddr)
  | call (a : Addr) (c : Call)
  | detachHandlerFromTransaction (a : Addr)
  deriving DecidableEq, Repr

/-- Run one operation. -/
def runOp (fuel : Nat) : Op → World → Except Fault World
  | Op.construct, w => Except.ok (construct w)
  | Op.setNextTransactionHandler a next, w => setNextTransactionHandler a next w
  | Op.setPrevFilter a prev, w => setPrevFilter a prev w
  | Op.setPrevTxn a prev, w => setPrevTxn a prev w
  | Op.call a c, w => callHandler fuel a c w
  | Op.detachHandlerFromTransaction a, w => detachHandlerFromTransaction fuel a w

/-- Run a sequence of operations, stopping at the first fault. -/
def runOps (fuel : Nat) : List Op → World → Except Fault World
  | [], w => Except.ok w
  | op :: ops, w =>
    match runOp fuel op w with
    | Except.error e => Except.error e
    | Except.ok w1 => runOps fuel ops w1

/-- An operation that is a `Handler` call or `detachHandlerFromTransaction`
made on a node of `chain` (no construction, no re-wiring). -/
def onChain (chain : List Addr) : Op → Bool
  | Op.call a _ => decide (a ∈ chain)
  | Op.detachHandlerFromTransaction a => decide (a ∈ chain)
  | _ => false

/-- Whether a recorded entry is a call made on a transaction. -/
def Ev.onTxn : Ev → Bool
  | Ev.setHandler _ _ => true
  | _ => false

/-- The representation invariant of `prev_`: no filter holds a null pointer in
the filter alternative of the variant. -/
def repInv (h : List Obj) : Bool :=
  h.all fun o =>
    match o with
    | Obj.filter f => decide (f.prev_ ≠ Prev.filter none)
    | Obj.handler => true

/-- One recorded flow-control signal: `pause()` entered on the object at `a`, or
`resume(offset)` entered on the object at `a`. -/
inductive FlowEv
  | pause (a : Addr)
  | resume (a : Addr) (offset : Nat)
  deriving DecidableEq, Repr

/-- The heap together with the flow-control signals recorded so far. -/
structure FlowWorld where
  heap : List Obj
  signals : List FlowEv
  deriving DecidableEq, Repr

/-- The heap after `nextElementIsPaused_` of the filter at `a` was set to `v`. -/
def setPaused (v : Bool) (h : List Obj) (a : Addr) : List Obj :=
  match h[a]? with
  | some (Obj.filter f) => h.set a (Obj.filter { f with nextElementIsPaused_ := v })
  | _ => h

/-- Modelled from the spec: the body of `HTTPMessageFilter::pause()`, which the
header only declares (`virtual void pause() noexcept;`); its definition is in
no file of the sources.  The spec says that the default behaviour "marks
`pausedDownstream` and forwards the signal along the chain in the same
direction as events": the node sets `nextElementIsPaused_` and hands the signal
to its forward target; an absent forward target is the spec's misuse error.  A
handler that is not a filter is external: the signal is recorded and returns. -/
def pause : Nat → Addr → FlowWorld → Except Fault FlowWorld
  | 0, _, _ => Except.error Fault.outOfFuel
  | fuel + 1, a, w =>
    match w.heap[a]? with
    | none => Except.error Fault.dangling
    | some Obj.handler => Except.ok ⟨w.heap, w.signals ++ [FlowEv.pause a]⟩
    | some (Obj.filter f) =>
      match f.nextTransactionHandler_ with
      | none => Except.error Fault.nullDeref
      | some n => pause fuel n ⟨setPaused true w.heap a, w.signals ++ [FlowEv.pause a]⟩

/-- Modelled from the spec: the body of `HTTPMessageFilter::resume(uint64_t)`,
which the header only declares; its definition is in no file of the sources.
By the same sentence of the spec the node marks `pausedDownstream` (here: no
longer paused) and hands the signal, with the offset it received, to its
forward target. -/
def resume : Nat → Addr → Nat → FlowWorld → Except Fault FlowWorld
  | 0, _, _, _ => Except.error Fault.outOfFuel
  | fuel + 1, a, offset, w =>
    match w.heap[a]? with
    | none => Except.error Fault.dangling
    | some Obj.handler => Except.ok ⟨w.heap, w.signals ++ [FlowEv.resume a offset]⟩
    | some (Obj.filter f) =>
      match f.nextTransactionHandler_ with
      | none => Except.error Fault.nullDeref
      | some n =>
        resume fuel n offset ⟨setPaused false w.heap a, w.signals ++ [FlowEv.resume a offset]⟩

/-- The signals recorded when `pause()` enters each address of `addrs` in turn. -/
def pausedAt (addrs : List Addr) : List FlowEv :=
  addrs.map FlowEv.pause

/-- The signals recorded when `resume(offset)` enters each address of `addrs` in turn. -/
def resumedAt (addrs : List Addr) (offset : Nat) : List FlowEv :=
  addrs.map fun a => FlowEv.resume a offset

/-! ## Lemmas -/

theorem fwdChain_nil (h : List Obj) (t : Addr) :
    fwdChain h [] t = true ↔ h[t]? = some Obj.handler := by
  simp [fwdChain]

theorem fwdChain_cons (h : List Obj) (a : Addr) (rest : List Addr) (t : Addr) :
    fwdChain h (a :: rest) t = true ↔
      ∃ f, h[a]? = some (Obj.filter f) ∧ f.nextTransactionHandler_ = some (rest.headD t) ∧
        fwdChain h rest t = true := by
  cases hx : h[a]? with
  | none => simp [fwdChain, hx]
  | some o =>
    cases o with
    | handler => simp [fwdChain, hx]
    | filter f => simp [fwdChain, hx]

theorem wfChain_nil (h : List Obj) (p : Prev) (t : Addr) :
    wfChain h p [] t = true ↔ h[t]? = some Obj.handler := by
  simp [wfChain]

theorem wfChain_cons (h : List Obj) (p : Prev) (a : Addr) (rest : List Addr) (t : Addr) :
    wfChain h p (a :: rest) t = true ↔
      ∃ f, h[a]? = some (Obj.filter f) ∧ f.nextTransactionHandler_ = some (rest.headD t) ∧
        f.prev_ = p ∧ wfChain h (Prev.filter (some a)) rest t = true := by
  cases hx : h[a]? with
  | none => simp [wfChain, hx]
  | some o =>
    cases o with
    | handler => simp [wfChain, hx]
    | filter f => simp [wfChain, hx, and_assoc]

theorem wfChain_fwdChain (h : List Obj) :
    ∀ (addrs : List Addr) (p : Prev) (t : Addr), wfChain h p addrs t = true →
      fwdChain h addrs t = true
  | [], p, t, hw => by
    rw [wfChain_nil] at hw
    rw [fwdChain_nil]; exact hw
  | a :: rest, p, t, hw => by
    rw [wfChain_cons] at hw
    obtain ⟨f, ha, hn, _, hr⟩ := hw
    rw [fwdChain_cons]
    exact ⟨f, ha, hn, wfChain_fwdChain h rest _ t hr⟩

theorem callHandler_handler (fuel : Nat) (a : Addr) (c : Call) (w : World)
    (ha : w.heap[a]? = some Obj.handler) :
    callHandler (fuel + 1) a c w = Except.ok (w.log (Ev.handler a c)) := by
  simp [callHandler, ha]

theorem callHandler_forward (fuel : Nat) (a : Addr) (c : Call) (w : World)
    (f : HTTPMessageFilter) (n : Addr) (hc : c ≠ Call.detachTransaction)
    (ha : w.heap[a]? = some (Obj.filter f)) (hn : f.nextTransactionHandler_ = some n) :
    callHandler (fuel + 1) a c w = callHandler fuel n c (w.log (Ev.handler a c)) := by
  cases c <;> first | exact absurd rfl hc | simp [callHandler, ha, hn]

theorem callHandler_unwired (fuel : Nat) (a : Addr) (c : Call) (w : World)
    (f : HTTPMessageFilter) (hc : c ≠ Call.detachTransaction)
    (ha : w.heap[a]? = some (Obj.filter f)) (hn : f.nextTransactionHandler_ = none) :
    callHandler (fuel + 1) a c w = Except.error Fault.nullDeref := by
  cases c <;> first | exact absurd rfl hc | simp [callHandler, ha, hn]

/-- Forwarding along a forward-wired chain: the call enters every node in
order, then the terminal handler, and the heap is untouched. -/
theorem callHandler_chain (h : List Obj) (c : Call) (hc : c ≠ Call.detachTransaction)
    (t : Addr) :
    ∀ (rest : List Addr) (a : Addr) (tr : List Ev) (fuel : Nat),
      fwdChain h (a :: rest) t = true → rest.length + 2 ≤ fuel →
      callHandler fuel a c ⟨h, tr⟩ =
        Except.ok ⟨h, tr ++ (delivered (a :: rest) c ++ [Ev.handler t c])⟩
  | [], a, tr, fuel, hw, hf => by
    rw [fwdChain_cons] at hw
    obtain ⟨f, ha, hn, hr⟩ := hw
    rw [fwdChain_nil] at hr
    obtain ⟨k, rfl⟩ : ∃ k, fuel = k + 2 := ⟨fuel - 2, by simp at hf; omega⟩
    rw [callHandler_forward (k + 1) a c ⟨h, tr⟩ f t hc ha (by simpa using hn)]
    rw [callHandler_handler k t c _ (by simpa [World.log] using hr)]
    simp [World.log, delivered]
  | b :: rest, a, tr, fuel, hw, hf => by
    rw [fwdChain_cons] at hw
    obtain ⟨f, ha, hn, hr⟩ := hw
    obtain ⟨k, rfl⟩ : ∃ k, fuel = k + 1 := ⟨fuel - 1, by simp at hf; omega⟩
    rw [callHandler_forward k a c ⟨h, tr⟩ f b hc ha (by simpa using hn)]
    have ih := callHandler_chain h c hc t rest b (tr ++ [Ev.handler a c]) k hr
      (by simp at hf ⊢; omega)
    simp only [World.log]
    rw [ih]
    simp [delivered]

theorem getElem?_lt_length (h : List Obj) (a : Addr) (o : Obj) (ha : h[a]? = some o) :
    a < h.length := by
  rcases Nat.lt_or_ge a h.length with hl | hl
  · exact hl
  · rw [List.getElem?_eq_none hl] at ha; cases ha

theorem nullPrev_of_filter_tag (h : List Obj) (a : Addr) (f : HTTPMessageFilter)
    (ha : h[a]? = some (Obj.filter f)) (x : Option Addr) (hp : f.prev_ = Prev.filter x) :
    nullPrev h a = h := by
  simp [nullPrev, ha, hp, Prev.which]

theorem nullPrev_of_txn_tag (h : List Obj) (a : Addr) (f : HTTPMessageFilter)
    (ha : h[a]? = some (Obj.filter f)) (o : Option TxnAddr) (hp : f.prev_ = Prev.txn o) :
    nullPrev h a = h.set a (Obj.filter { f with prev_ := Prev.txn none }) := by
  simp [nullPrev, ha, hp, Prev.which]

theorem nullPrev_of_null (h : List Obj) (a : Addr) (f : HTTPMessageFilter)
    (ha : h[a]? = some (Obj.filter f)) (hp : f.prev_ = Prev.txn none) :
    nullPrev h a = h := by
  rw [nullPrev_of_txn_tag h a f ha none hp]
  have hl := getElem?_lt_length h a _ ha
  have hf : ({ f with prev_ := Prev.txn none } : HTTPMessageFilter) = f := by
    cases f; simp_all
  rw [hf]
  apply List.ext_getElem? 
  intro i
  rw [List.getElem?_set]
  split
  · next hi => subst hi; simp [hl, ha]
  · rfl

/-- An address whose object is not a filter with a transaction-tagged `prev_`
reads the same before and after `nullPrev`. -/
theorem nullPrev_getElem? (h : List Obj) (a b : Addr)
    (hb : ∀ f, h[b]? = some (Obj.filter f) → f.prev_.which = 0) :
    (nullPrev h a)[b]? = h[b]? := by
  unfold nullPrev
  cases ha : h[a]? with
  | none => rfl
  | some o =>
    cases o with
    | handler => rfl
    | filter f =>
      by_cases hw : f.prev_.which = 1
      · simp only [hw, if_true]
        rw [List.getElem?_set]
        split
        · next hab =>
          subst hab
          have := hb f ha
          omega
        · rfl
      · simp [hw]

theorem wfChain_nullPrev (h : List Obj) (a : Addr) (t : Addr) :
    ∀ (rest : List Addr) (x : Option Addr), wfChain h (Prev.filter x) rest t = true →
      wfChain (nullPrev h a) (Prev.filter x) rest t = true
  | [], x, hw => by
    rw [wfChain_nil] at hw ⊢
    rw [nullPrev_getElem? h a t (by intro f hf; rw [hw] at hf; cases hf)]
    exact hw
  | b :: rest, x, hw => by
    rw [wfChain_cons] at hw ⊢
    obtain ⟨f, hb, hn, hp, hr⟩ := hw
    refine ⟨f, ?_, hn, hp, wfChain_nullPrev h a t rest _ hr⟩
    rw [nullPrev_getElem? h a b]
    · exact hb
    · intro g hg
      rw [hb] at hg
      cases hg
      rw [hp]; rfl

theorem callHandler_detach_step (fuel : Nat) (a : Addr) (h : List Obj) (tr : List Ev)
    (f : HTTPMessageFilter) (n : Addr)
    (ha : h[a]? = some (Obj.filter f)) (hn : f.nextTransactionHandler_ = some n) :
    callHandler (fuel + 1) a Call.detachTransaction ⟨h, tr⟩ =
      callHandler fuel n Call.detachTransaction
        ⟨nullPrev h a, tr ++ [Ev.handler a Call.detachTransaction]⟩ := by
  by_cases hw : f.prev_.which = 1
  · simp [callHandler, ha, hn, nullPrev, World.log, World.store, hw]
  · simp [callHandler, ha, hn, nullPrev, World.log, World.store, hw]

/-- `detachTransaction` along a well-formed chain: it enters every node in order
and then the terminal handler; the only write is `nullPrev` at the first node. -/
theorem detachTransaction_chain (t : Addr) :
    ∀ (rest : List Addr) (h : List Obj) (p : Prev) (a : Addr) (tr : List Ev) (fuel : Nat),
      wfChain h p (a :: rest) t = true → rest.length + 2 ≤ fuel →
      callHandler fuel a Call.detachTransaction ⟨h, tr⟩ =
        Except.ok ⟨nullPrev h a, tr ++ (delivered (a :: rest) Call.detachTransaction ++
          [Ev.handler t Call.detachTransaction])⟩
  | [], h, p, a, tr, fuel, hw, hf => by
    rw [wfChain_cons] at hw
    obtain ⟨f, ha, hn, hp, hr⟩ := hw
    have hr2 := wfChain_nullPrev h a t [] _ hr
    rw [wfChain_nil] at hr2
    obtain ⟨k, rfl⟩ : ∃ k, fuel = k + 2 := ⟨fuel - 2, by simp at hf; omega⟩
    rw [callHandler_detach_step (k + 1) a h tr f t ha (by simpa using hn)]
    rw [callHandler_handler k t _ _ (by simpa using hr2)]
    simp [World.log, delivered]
  | b :: rest, h, p, a, tr, fuel, hw, hf => by
    rw [wfChain_cons] at hw
    obtain ⟨f, ha, hn, hp, hr⟩ := hw
    have hr2 := wfChain_nullPrev h a t (b :: rest) _ hr
    obtain ⟨k, rfl⟩ : ∃ k, fuel = k + 1 := ⟨fuel - 1, by simp at hf; omega⟩
    rw [callHandler_detach_step k a h tr f b ha (by simpa using hn)]
    rw [detachTransaction_chain t rest (nullPrev h a) _ b _ k hr2 (by simp at hf ⊢; omega)]
    rw [wfChain_cons] at hr2
    obtain ⟨g, hb, _, hgp, _⟩ := hr2
    rw [nullPrev_of_filter_tag _ b g hb _ hgp]
    simp [delivered]

theorem bwdChain_one (h : List Obj) (p : Prev) (a : Addr) :
    bwdChain h p [a] = true ↔ ∃ f, h[a]? = some (Obj.filter f) ∧ f.prev_ = p := by
  cases hx : h[a]? with
  | none => simp [bwdChain, hx]
  | some o =>
    cases o with
    | handler => simp [bwdChain, hx]
    | filter f => simp [bwdChain, hx]

theorem bwdChain_two (h : List Obj) (p : Prev) (a b : Addr) (rest : List Addr) :
    bwdChain h p (a :: b :: rest) = true ↔
      (∃ f, h[a]? = some (Obj.filter f) ∧ f.prev_ = Prev.filter (some b)) ∧
        bwdChain h p (b :: rest) = true := by
  cases hx : h[a]? with
  | none => simp [bwdChain, hx]
  | some o =>
    cases o with
    | handler => simp [bwdChain, hx]
    | filter f => simp [bwdChain, hx]

theorem bwdChain_snoc (h : List Obj) (p : Prev) (x : Addr)
    (hx : ∃ f, h[x]? = some (Obj.filter f) ∧ f.prev_ = p) :
    ∀ l : List Addr, bwdChain h (Prev.filter (some x)) l = true →
      bwdChain h p (l ++ [x]) = true
  | [], hl => by simp [bwdChain] at hl
  | [a], hl => by
    rw [bwdChain_one] at hl
    simp only [List.singleton_append]
    rw [bwdChain_two, bwdChain_one]
    exact ⟨hl, hx⟩
  | a :: b :: rest, hl => by
    rw [bwdChain_two] at hl
    have ih := bwdChain_snoc h p x hx (b :: rest) hl.2
    simp only [List.cons_append] at ih ⊢
    rw [bwdChain_two]
    exact ⟨hl.1, ih⟩

theorem wfChain_bwdChain (h : List Obj) (t : Addr) (a : Addr) (post : List Addr) :
    ∀ (pre : List Addr) (p : Prev), wfChain h p (pre ++ a :: post) t = true →
      bwdChain h p (a :: pre.reverse) = true
  | [], p, hw => by
    simp only [List.nil_append] at hw
    rw [wfChain_cons] at hw
    obtain ⟨f, ha, _, hp, _⟩ := hw
    simp only [List.reverse_nil]
    rw [bwdChain_one]
    exact ⟨f, ha, hp⟩
  | x :: pre, p, hw => by
    simp only [List.cons_append] at hw
    rw [wfChain_cons] at hw
    obtain ⟨f, hx, _, hp, hr⟩ := hw
    have ih := wfChain_bwdChain h t a post pre _ hr
    have := bwdChain_snoc h p x ⟨f, hx, hp⟩ _ ih
    simpa using this

theorem wfChain_suffix (h : List Obj) (t : Addr) (a : Addr) (post : List Addr) :
    ∀ (pre : List Addr) (p : Prev), wfChain h p (pre ++ a :: post) t = true →
      ∃ q, wfChain h q (a :: post) t = true ∧ (pre = [] → q = p) ∧
        (pre ≠ [] → ∃ x, q = Prev.filter x)
  | [], p, hw => ⟨p, by simpa using hw, fun _ => rfl, fun hne => absurd rfl hne⟩
  | x :: pre, p, hw => by
    simp only [List.cons_append] at hw
    rw [wfChain_cons] at hw
    obtain ⟨f, hx, _, hp, hr⟩ := hw
    obtain ⟨q, hq, hq0, hqx⟩ := wfChain_suffix h t a post pre _ hr
    refine ⟨q, hq, fun hnil => absurd hnil (List.cons_ne_nil _ _), fun _ => ?_⟩
    cases pre with
    | nil => exact ⟨_, hq0 rfl⟩
    | cons y ys => exact hqx (by simp)

/-- `detachHandlerFromTransaction` along backward wiring that ends at a node
with a transaction-tagged `prev_`: it enters every node of the list in turn,
calls `setHandler(nullptr)` when the transaction pointer is non-null, and the
only write is `nullPrev` at the last address of the list. -/
theorem detachHandler_bwd (h : List Obj) (o : Option TxnAddr) (a0 : Addr) :
    ∀ (l : List Addr) (a : Addr) (tr : List Ev) (fuel : Nat),
      bwdChain h (Prev.txn o) (a :: l) = true → (a :: l).getLast? = some a0 →
      l.length + 1 ≤ fuel →
      detachHandlerFromTransaction fuel a ⟨h, tr⟩ =
        Except.ok ⟨nullPrev h a0, tr ++ (detachedAt (a :: l) ++ txnCalls o)⟩
  | [], a, tr, fuel, hb, hl, hf => by
    rw [bwdChain_one] at hb
    obtain ⟨f, ha, hp⟩ := hb
    simp at hl
    subst hl
    obtain ⟨k, rfl⟩ : ∃ k, fuel = k + 1 := ⟨fuel - 1, by simp at hf; omega⟩
    cases o with
    | none =>
      rw [nullPrev_of_null h a f ha hp]
      simp [detachHandlerFromTransaction, ha, hp, World.log, detachedAt, txnCalls]
    | some T =>
      rw [nullPrev_of_txn_tag h a f ha _ hp]
      simp [detachHandlerFromTransaction, ha, hp, World.log, World.store, detachedAt, txnCalls]
  | b :: rest, a, tr, fuel, hb, hl, hf => by
    rw [bwdChain_two] at hb
    obtain ⟨⟨f, ha, hp⟩, hr⟩ := hb
    obtain ⟨k, rfl⟩ : ∃ k, fuel = k + 1 := ⟨fuel - 1, by simp at hf; omega⟩
    have hl2 : (b :: rest).getLast? = some a0 := by
      rw [List.getLast?_cons_cons] at hl; exact hl
    have ih := detachHandler_bwd h o a0 rest b (tr ++ [Ev.detachHandlerFromTransaction a]) k
      hr hl2 (by simp at hf ⊢; omega)
    have step : detachHandlerFromTransaction (k + 1) a ⟨h, tr⟩ =
        detachHandlerFromTransaction k b ⟨h, tr ++ [Ev.detachHandlerFromTransaction a]⟩ := by
      simp [detachHandlerFromTransaction, ha, hp, World.log]
    rw [step, ih]
    simp [detachedAt]

/-- `detachHandlerFromTransaction` called on any node of a well-formed chain
whose first node holds a transaction-tagged `prev_`. -/
theorem detachHandler_wf (h : List Obj) (o : Option TxnAddr) (t : Addr)
    (pre : List Addr) (a : Addr) (post : List Addr) (a0 : Addr) (tr : List Ev) (fuel : Nat)
    (hw : wfChain h (Prev.txn o) (pre ++ a :: post) t = true)
    (h0 : (pre ++ a :: post).head? = some a0) (hf : pre.length + 1 ≤ fuel) :
    detachHandlerFromTransaction fuel a ⟨h, tr⟩ =
      Except.ok ⟨nullPrev h a0, tr ++ (detachedAt (a :: pre.reverse) ++ txnCalls o)⟩ := by
  have hb := wfChain_bwdChain h t a post pre _ hw
  apply detachHandler_bwd h o a0 pre.reverse a tr fuel hb
  · cases pre with
    | nil => simpa using h0
    | cons x xs =>
      simp only [List.cons_append, List.head?_cons, Option.some.injEq] at h0
      subst h0
      have : a :: (x :: xs).reverse = (a :: xs.reverse) ++ [x] := by simp
      rw [this, List.getLast?_append]
      simp
  · simpa using hf

theorem fwdChain_terminal (h : List Obj) (t : Addr) :
    ∀ l : List Addr, fwdChain h l t = true → h[t]? = some Obj.handler
  | [], hw => (fwdChain_nil h t).1 hw
  | a :: rest, hw => by
    rw [fwdChain_cons] at hw
    obtain ⟨_, _, _, hr⟩ := hw
    exact fwdChain_terminal h t rest hr

theorem fwdChain_suffix (h : List Obj) (t : Addr) (l : List Addr) :
    ∀ pre : List Addr, fwdChain h (pre ++ l) t = true → fwdChain h l t = true
  | [], hw => by simpa using hw
  | x :: pre, hw => by
    simp only [List.cons_append] at hw
    rw [fwdChain_cons] at hw
    obtain ⟨_, _, _, hr⟩ := hw
    exact fwdChain_suffix h t l pre hr

theorem fwdChain_unique (h : List Obj) (t : Addr) :
    ∀ (l l2 : List Addr) (a : Addr), fwdChain h (a :: l) t = true →
      fwdChain h (a :: l2) t = true → l = l2
  | [], [], _, _, _ => rfl
  | [], b :: l2, a, h1, h2 => by
    rw [fwdChain_cons] at h1 h2
    obtain ⟨f, ha, hn, hr⟩ := h1
    obtain ⟨g, hg, hn2, hr2⟩ := h2
    rw [ha] at hg; cases hg
    rw [hn] at hn2
    simp at hn2
    subst hn2
    rw [fwdChain_nil] at hr
    rw [fwdChain_cons] at hr2
    obtain ⟨g, hg, _⟩ := hr2
    rw [hr] at hg; cases hg
  | b :: l, [], a, h1, h2 => by
    rw [fwdChain_cons] at h1 h2
    obtain ⟨f, ha, hn, hr⟩ := h1
    obtain ⟨g, hg, hn2, hr2⟩ := h2
    rw [ha] at hg; cases hg
    rw [hn] at hn2
    simp at hn2
    subst hn2
    rw [fwdChain_nil] at hr2
    rw [fwdChain_cons] at hr
    obtain ⟨g, hg, _⟩ := hr
    rw [hr2] at hg; cases hg
  | b :: l, b2 :: l2, a, h1, h2 => by
    rw [fwdChain_cons] at h1 h2
    obtain ⟨f, ha, hn, hr⟩ := h1
    obtain ⟨g, hg, hn2, hr2⟩ := h2
    rw [ha] at hg; cases hg
    rw [hn] at hn2
    simp at hn2
    subst hn2
    rw [fwdChain_unique h t l l2 b hr hr2]

theorem fwdChain_nodup (h : List Obj) (t : Addr) :
    ∀ l : List Addr, fwdChain h l t = true → l.Nodup ∧ t ∉ l
  | [], _ => by simp
  | a :: rest, hw => by
    have hw0 := hw
    rw [fwdChain_cons] at hw
    obtain ⟨f, ha, _, hr⟩ := hw
    obtain ⟨hnd, ht⟩ := fwdChain_nodup h t rest hr
    have hterm := fwdChain_terminal h t rest hr
    have hat : t ≠ a := by
      intro hta
      subst hta
      rw [ha] at hterm; cases hterm
    have hmem : a ∉ rest := by
      intro hin
      obtain ⟨pre, post, hsplit⟩ := List.append_of_mem hin
      have hsuf : fwdChain h (a :: post) t = true := by
        apply fwdChain_suffix h t (a :: post) pre
        rw [← hsplit]; exact hr
      have := fwdChain_unique h t rest post a hw0 hsuf
      rw [this] at hsplit
      have hlen := congrArg List.length hsplit
      simp at hlen
      omega
    exact ⟨List.nodup_cons.2 ⟨hmem, hnd⟩, by simp [hat, ht]⟩

theorem wireExample_eq : wireExample = Except.ok ⟨exampleHeap, []⟩ := by
  rfl

theorem exampleHeap_wf : wfChain exampleHeap (Prev.txn (some 7)) [0, 1] 2 = true := by
  decide

theorem prevOf_nullPrev_txn (h : List Obj) (a : Addr) (f : HTTPMessageFilter)
    (ha : h[a]? = some (Obj.filter f)) (o : Option TxnAddr) (hp : f.prev_ = Prev.txn o) :
    prevOf (nullPrev h a) a = some (Prev.txn none) := by
  rw [nullPrev_of_txn_tag h a f ha o hp]
  have hl := getElem?_lt_length h a _ ha
  simp [prevOf, List.getElem?_set, hl]

theorem Frame.refl (h : List Obj) : Frame h h :=
  fun _ => Or.inl rfl

theorem Frame.trans {h1 h2 h3 : List Obj} (h12 : Frame h1 h2) (h23 : Frame h2 h3) :
    Frame h1 h3 := by
  intro b
  rcases h12 b with e12 | ⟨f, T, hf, hp, e12⟩
  · rw [← e12]; exact h23 b
  · rcases h23 b with e23 | ⟨g, T2, hg, hp2, _⟩
    · exact Or.inr ⟨f, T, hf, hp, by rw [e23, e12]⟩
    · rw [e12] at hg
      cases hg
      cases hp2

theorem frame_nullPrev (h : List Obj) (a : Addr) : Frame h (nullPrev h a) := by
  cases ha : h[a]? with
  | none => simp [nullPrev, ha, Frame.refl]
  | some o =>
    cases o with
    | handler => simp [nullPrev, ha, Frame.refl]
    | filter f =>
      cases hp : f.prev_ with
      | filter x => rw [nullPrev_of_filter_tag h a f ha x hp]; exact Frame.refl h
      | txn o =>
        cases o with
        | none => rw [nullPrev_of_null h a f ha hp]; exact Frame.refl h
        | some T =>
          rw [nullPrev_of_txn_tag h a f ha _ hp]
          intro b
          rw [List.getElem?_set]
          by_cases hab : a = b
          · subst hab
            have hl := getElem?_lt_length h a _ ha
            simp only [if_true, hl]
            exact Or.inr ⟨f, T, ha, hp, rfl⟩
          · simp only [hab, if_false]
            exact Or.inl rfl

theorem callHandler_detach_unwired (fuel : Nat) (a : Addr) (h : List Obj) (tr : List Ev)
    (f : HTTPMessageFilter)
    (ha : h[a]? = some (Obj.filter f)) (hn : f.nextTransactionHandler_ = none) :
    callHandler (fuel + 1) a Call.detachTransaction ⟨h, tr⟩ =
      Except.ok ⟨nullPrev h a, tr ++ [Ev.handler a Call.detachTransaction]⟩ := by
  by_cases hw : f.prev_.which = 1
  · simp [callHandler, ha, hn, nullPrev, World.log, World.store, hw]
  · simp [callHandler, ha, hn, nullPrev, World.log, World.store, hw]

/-- Every `Handler` call, on any heap, changes the heap only within `Frame`. -/
theorem callHandler_frame :
    ∀ (fuel : Nat) (a : Addr) (c : Call) (h : List Obj) (tr : List Ev) (w2 : World),
      callHandler fuel a c ⟨h, tr⟩ = Except.ok w2 → Frame h w2.heap
  | 0, a, c, h, tr, w2, hrun => by simp [callHandler] at hrun
  | k + 1, a, c, h, tr, w2, hrun => by
    cases ha : h[a]? with
    | none => simp [callHandler, ha] at hrun
    | some o =>
      cases o with
      | handler =>
        rw [callHandler_handler k a c ⟨h, tr⟩ ha] at hrun
        cases hrun
        exact Frame.refl h
      | filter f =>
        by_cases hc : c = Call.detachTransaction
        · subst hc
          cases hn : f.nextTransactionHandler_ with
          | none =>
            rw [callHandler_detach_unwired k a h tr f ha hn] at hrun
            cases hrun
            exact frame_nullPrev h a
          | some n =>
            rw [callHandler_detach_step k a h tr f n ha hn] at hrun
            exact (frame_nullPrev h a).trans (callHandler_frame k n _ _ _ w2 hrun)
        · cases hn : f.nextTransactionHandler_ with
          | none =>
            rw [callHandler_unwired k a c ⟨h, tr⟩ f hc ha hn] at hrun
            cases hrun
          | some n =>
            rw [callHandler_forward k a c ⟨h, tr⟩ f n hc ha hn] at hrun
            exact callHandler_frame k n c _ _ w2 hrun

/-- `detachHandlerFromTransaction`, on any heap, changes the heap only within `Frame`. -/
theorem detachHandler_frame :
    ∀ (fuel : Nat) (a : Addr) (h : List Obj) (tr : List Ev) (w2 : World),
      detachHandlerFromTransaction fuel a ⟨h, tr⟩ = Except.ok w2 → Frame h w2.heap
  | 0, a, h, tr, w2, hrun => by simp [detachHandlerFromTransaction] at hrun
  | k + 1, a, h, tr, w2, hrun => by
    cases ha : h[a]? with
    | none => simp [detachHandlerFromTransaction, ha] at hrun
    | some o =>
      cases o with
      | handler => simp [detachHandlerFromTransaction, ha] at hrun
      | filter f =>
        cases hp : f.prev_ with
        | filter x =>
          cases x with
          | none =>
            simp [detachHandlerFromTransaction, ha, hp, World.log] at hrun
            subst hrun
            exact Frame.refl h
          | some p =>
            simp only [detachHandlerFromTransaction, ha, hp, World.log] at hrun
            exact detachHandler_frame k p h _ w2 hrun
        | txn o =>
          cases o with
          | none =>
            simp [detachHandlerFromTransaction, ha, hp, World.log] at hrun
            subst hrun
            exact Frame.refl h
          | some T =>
            simp [detachHandlerFromTransaction, ha, hp, World.log, World.store] at hrun
            subst hrun
            have := frame_nullPrev h a
            rw [nullPrev_of_txn_tag h a f ha _ hp] at this
            exact this

theorem frame_nextOf {h h2 : List Obj} (hfr : Frame h h2) (b : Addr) :
    nextOf h2 b = nextOf h b := by
  rcases hfr b with e | ⟨f, T, hf, _, e⟩
  · simp [nextOf, e]
  · simp [nextOf, e, hf]

theorem frame_pausedOf {h h2 : List Obj} (hfr : Frame h h2) (b : Addr) :
    pausedOf h2 b = pausedOf h b := by
  rcases hfr b with e | ⟨f, T, hf, _, e⟩
  · simp [pausedOf, e]
  · simp [pausedOf, e, hf]

theorem frame_prevOf {h h2 : List Obj} (hfr : Frame h h2) (b : Addr) :
    prevOf h2 b = prevOf h b ∨
      ∃ T, prevOf h b = some (Prev.txn (some T)) ∧ prevOf h2 b = some (Prev.txn none) := by
  rcases hfr b with e | ⟨f, T, hf, hp, e⟩
  · left; simp [prevOf, e]
  · right; exact ⟨T, by simp [prevOf, hf, hp], by simp [prevOf, e]⟩

theorem repInv_iff (h : List Obj) :
    repInv h = true ↔ ∀ (a : Addr) (f : HTTPMessageFilter), h[a]? = some (Obj.filter f) → f.prev_ ≠ Prev.filter none := by
  unfold repInv
  rw [List.all_eq_true]
  constructor
  · intro hall a f ha
    have hmem : Obj.filter f ∈ h := by
      rw [List.mem_iff_getElem?]; exact ⟨a, ha⟩
    simpa using hall _ hmem
  · intro hall o ho
    rw [List.mem_iff_getElem?] at ho
    obtain ⟨a, ha⟩ := ho
    cases o with
    | handler => rfl
    | filter f => simpa using hall a f ha

theorem frame_repInv {h h2 : List Obj} (hfr : Frame h h2) (hinv : repInv h = true) :
    repInv h2 = true := by
  rw [repInv_iff] at hinv ⊢
  intro a f ha
  rcases hfr a with e | ⟨g, T, hg, hp, e⟩
  · rw [e] at ha; exact hinv a f ha
  · rw [e] at ha
    cases ha
    simp

theorem getElem?_set_filter (h : List Obj) (a b : Addr) (f g : HTTPMessageFilter)
    (ha : h[a]? = some (Obj.filter f)) :
    (h.set a (Obj.filter g))[b]? = if a = b then some (Obj.filter g) else h[b]? := by
  have hl := getElem?_lt_length h a _ ha
  rw [List.getElem?_set]
  by_cases hab : a = b
  · subst hab; simp [hl]
  · simp [hab]

/-- A write to the members of one filter that stores no null filter pointer
keeps `repInv`. -/
theorem repInv_set (h : List Obj) (a : Addr) (f g : HTTPMessageFilter)
    (ha : h[a]? = some (Obj.filter f)) (hg : g.prev_ ≠ Prev.filter none)
    (hinv : repInv h = true) : repInv (h.set a (Obj.filter g)) = true := by
  rw [repInv_iff] at hinv ⊢
  intro b f2 hb
  rw [getElem?_set_filter h a b f g ha] at hb
  by_cases hab : a = b
  · simp only [hab, if_true] at hb
    cases hb
    exact hg
  · simp only [hab, if_false] at hb
    exact hinv b f2 hb

/-- A write to the members of one filter that stores a non-null forward
pointer keeps every non-null forward pointer non-null. -/
theorem nextOf_set (h : List Obj) (a : Addr) (f g : HTTPMessageFilter)
    (ha : h[a]? = some (Obj.filter f))
    (hg : f.nextTransactionHandler_ ≠ none → g.nextTransactionHandler_ ≠ none)
    (b : Addr) (n : Addr) (hb : nextOf h b = some (some n)) :
    ∃ n2, nextOf (h.set a (Obj.filter g)) b = some (some n2) := by
  unfold nextOf at hb ⊢
  rw [getElem?_set_filter h a b f g ha]
  by_cases hab : a = b
  · subst hab
    simp only [if_true]
    rw [ha] at hb
    simp only [Option.some.injEq] at hb
    have := hg (by rw [hb]; simp)
    cases hgn : g.nextTransactionHandler_ with
    | none => exact absurd hgn this
    | some n2 => exact ⟨n2, rfl⟩
  · simp only [hab, if_false]
    exact ⟨n, hb⟩

/-- Every operation that returns keeps `repInv` and keeps every non-null
forward pointer non-null. -/
theorem runOp_invariant (op : Op) (fuel : Nat) (w w2 : World)
    (hrun : runOp fuel op w = Except.ok w2) :
    (repInv w.heap = true → repInv w2.heap = true) ∧
      ∀ b n, nextOf w.heap b = some (some n) → ∃ n2, nextOf w2.heap b = some (some n2) := by
  obtain ⟨h, tr⟩ := w
  cases op with
  | construct =>
    simp only [runOp, construct, Except.ok.injEq] at hrun
    subst hrun
    constructor
    · intro hinv
      simp only [repInv, List.all_append, Bool.and_eq_true] at hinv ⊢
      exact ⟨hinv, by simp [HTTPMessageFilter.init]⟩
    · intro b n hb
      refine ⟨n, ?_⟩
      unfold nextOf at hb ⊢
      have hl : b < h.length := by
        rcases Nat.lt_or_ge b h.length with hl | hl
        · exact hl
        · simp [List.getElem?_eq_none hl] at hb
      simp only [List.getElem?_append_left hl]
      exact hb
  | setNextTransactionHandler a next =>
    simp only [runOp, setNextTransactionHandler] at hrun
    cases ha : h[a]? with
    | none => simp [ha] at hrun
    | some o =>
      cases o with
      | handler => simp [ha] at hrun
      | filter f =>
        cases next with
        | none => simp [ha, CHECK_NOTNULL] at hrun
        | some n =>
          simp only [ha, CHECK_NOTNULL, World.store, Except.ok.injEq] at hrun
          subst hrun
          constructor
          · intro hinv
            rw [repInv_iff] at hinv
            exact repInv_set h a f _ ha (hinv a f ha) ((repInv_iff h).2 hinv)
          · intro b m hb
            exact nextOf_set h a f _ ha (by simp) b m hb
  | setPrevFilter a prev =>
    simp only [runOp, setPrevFilter] at hrun
    cases ha : h[a]? with
    | none => simp [ha] at hrun
    | some o =>
      cases o with
      | handler => simp [ha] at hrun
      | filter f =>
        cases prev with
        | none => simp [ha, CHECK_NOTNULL] at hrun
        | some n =>
          simp only [ha, CHECK_NOTNULL, World.store, Except.ok.injEq] at hrun
          subst hrun
          constructor
          · intro hinv
            exact repInv_set h a f _ ha (by simp) hinv
          · intro b m hb
            exact nextOf_set h a f _ ha (by simp) b m hb
  | setPrevTxn a prev =>
    simp only [runOp, setPrevTxn] at hrun
    cases ha : h[a]? with
    | none => simp [ha] at hrun
    | some o =>
      cases o with
      | handler => simp [ha] at hrun
      | filter f =>
        cases prev with
        | none => simp [ha, CHECK_NOTNULL] at hrun
        | some n =>
          simp only [ha, CHECK_NOTNULL, World.store, Except.ok.injEq] at hrun
          subst hrun
          constructor
          · intro hinv
            exact repInv_set h a f _ ha (by simp) hinv
          · intro b m hb
            exact nextOf_set h a f _ ha (by simp) b m hb
  | call a c =>
    have hfr := callHandler_frame fuel a c h tr w2 hrun
    exact ⟨frame_repInv hfr, fun b n hb => ⟨n, by rw [frame_nextOf hfr b]; exact hb⟩⟩
  | detachHandlerFromTransaction a =>
    have hfr := detachHandler_frame fuel a h tr w2 hrun
    exact ⟨frame_repInv hfr, fun b n hb => ⟨n, by rw [frame_nextOf hfr b]; exact hb⟩⟩

theorem wfChain_nullPrev_head (h : List Obj) (o : Option TxnAddr) (a : Addr)
    (rest : List Addr) (t : Addr) (hw : wfChain h (Prev.txn o) (a :: rest) t = true) :
    wfChain (nullPrev h a) (Prev.txn none) (a :: rest) t = true := by
  rw [wfChain_cons] at hw ⊢
  obtain ⟨f, ha, hn, hp, hr⟩ := hw
  refine ⟨{ f with prev_ := Prev.txn none }, ?_, hn, rfl, wfChain_nullPrev h a t rest _ hr⟩
  rw [nullPrev_of_txn_tag h a f ha o hp, getElem?_set_filter h a a f _ ha]
  simp

/-- `detachTransaction` called on any node of a well-formed chain. -/
theorem detachTransaction_wf (h : List Obj) (p : Prev) (t : Addr)
    (pre : List Addr) (b : Addr) (post : List Addr) (tr : List Ev) (fuel : Nat)
    (hw : wfChain h p (pre ++ b :: post) t = true) (hf : post.length + 2 ≤ fuel) :
    callHandler fuel b Call.detachTransaction ⟨h, tr⟩ =
      Except.ok ⟨nullPrev h b, tr ++ (delivered (b :: post) Call.detachTransaction ++
        [Ev.handler t Call.detachTransaction])⟩ := by
  obtain ⟨q, hq, _, _⟩ := wfChain_suffix h t b post pre p hw
  exact detachTransaction_chain t post h q b tr fuel hq hf

/-- In a chain whose head holds the null transaction pointer, the first
statement of `detachTransaction` writes nothing at any node. -/
theorem nullPrev_detached (h : List Obj) (t : Addr) (pre : List Addr) (b : Addr)
    (post : List Addr) (hw : wfChain h (Prev.txn none) (pre ++ b :: post) t = true) :
    nullPrev h b = h := by
  obtain ⟨q, hq, hq0, hqx⟩ := wfChain_suffix h t b post pre _ hw
  rw [wfChain_cons] at hq
  obtain ⟨f, hb, _, hp, _⟩ := hq
  cases pre with
  | nil => exact nullPrev_of_null h b f hb (by rw [hp, hq0 rfl])
  | cons y ys =>
    obtain ⟨x, hx⟩ := hqx (by simp)
    exact nullPrev_of_filter_tag h b f hb x (by rw [hp, hx])

theorem onTxn_delivered (l : List Addr) (c : Call) (t : Addr) :
    ∀ e ∈ delivered l c ++ [Ev.handler t c], e.onTxn = false := by
  intro e he
  simp only [delivered, List.mem_append, List.mem_map, List.mem_singleton] at he
  rcases he with ⟨x, _, rfl⟩ | rfl <;> rfl

theorem onTxn_detachedAt (l : List Addr) :
    ∀ e ∈ detachedAt l ++ txnCalls none, e.onTxn = false := by
  intro e he
  simp only [detachedAt, txnCalls, List.append_nil, List.mem_map] at he
  obtain ⟨x, _, rfl⟩ := he
  rfl

/-- On a chain whose head holds the null transaction pointer, every `Handler`
call and every `detachHandlerFromTransaction` on a node of the chain returns,
leaves the heap as it is and records no call on a transaction. -/
theorem runOp_detached (h : List Obj) (chain : List Addr) (t : Addr)
    (hw : wfChain h (Prev.txn none) chain t = true) (op : Op)
    (hop : onChain chain op = true) (tr : List Ev) (fuel : Nat)
    (hf : chain.length + 1 ≤ fuel) :
    ∃ tr2, runOp fuel op ⟨h, tr⟩ = Except.ok ⟨h, tr ++ tr2⟩ ∧ ∀ e ∈ tr2, e.onTxn = false := by
  cases op with
  | construct => simp [onChain] at hop
  | setNextTransactionHandler a next => simp [onChain] at hop
  | setPrevFilter a prev => simp [onChain] at hop
  | setPrevTxn a prev => simp [onChain] at hop
  | call b c =>
    simp only [onChain, decide_eq_true_eq] at hop
    obtain ⟨pre, post, hsplit⟩ := List.append_of_mem hop
    subst hsplit
    have hlen : post.length + 2 ≤ fuel := by simp at hf; omega
    by_cases hc : c = Call.detachTransaction
    · subst hc
      refine ⟨_, ?_, onTxn_delivered (b :: post) Call.detachTransaction t⟩
      simp only [runOp]
      rw [detachTransaction_wf h _ t pre b post tr fuel hw hlen,
        nullPrev_detached h t pre b post hw]
    · refine ⟨_, ?_, onTxn_delivered (b :: post) c t⟩
      simp only [runOp]
      exact callHandler_chain h c hc t post b tr fuel
        (fwdChain_suffix h t _ pre (wfChain_fwdChain h _ _ t hw)) hlen
  | detachHandlerFromTransaction b =>
    simp only [onChain, decide_eq_true_eq] at hop
    obtain ⟨pre, post, hsplit⟩ := List.append_of_mem hop
    subst hsplit
    have hlen : pre.length + 1 ≤ fuel := by simp at hf; omega
    obtain ⟨a0, h0⟩ : ∃ a0, (pre ++ b :: post).head? = some a0 := by
      cases pre with
      | nil => exact ⟨b, rfl⟩
      | cons y ys => exact ⟨y, rfl⟩
    refine ⟨_, ?_, onTxn_detachedAt (b :: pre.reverse)⟩
    simp only [runOp]
    rw [detachHandler_wf h none t pre b post a0 tr fuel hw h0 hlen]
    have hnp : nullPrev h a0 = h := by
      cases pre with
      | nil =>
        simp only [List.nil_append, List.head?_cons, Option.some.injEq] at h0
        subst h0
        exact nullPrev_detached h t [] b post hw
      | cons y ys =>
        simp only [List.cons_append, List.head?_cons, Option.some.injEq] at h0
        subst h0
        exact nullPrev_detached h t [] y (ys ++ b :: post) hw
    rw [hnp]

theorem runOps_detached (h : List Obj) (chain : List Addr) (t : Addr)
    (hw : wfChain h (Prev.txn none) chain t = true) (fuel : Nat)
    (hf : chain.length + 1 ≤ fuel) :
    ∀ (ops : List Op) (tr : List Ev), (∀ op ∈ ops, onChain chain op = true) →
      ∃ tr2, runOps fuel ops ⟨h, tr⟩ = Except.ok ⟨h, tr ++ tr2⟩ ∧
        ∀ e ∈ tr2, e.onTxn = false
  | [], tr, _ => ⟨[], by simp [runOps], by simp⟩
  | op :: ops, tr, hops => by
    obtain ⟨tr1, hrun1, hno1⟩ :=
      runOp_detached h chain t hw op (hops op (by simp)) tr fuel hf
    obtain ⟨tr2, hrun2, hno2⟩ :=
      runOps_detached h chain t hw fuel hf ops (tr ++ tr1)
        (fun o ho => hops o (by simp [ho]))
    refine ⟨tr1 ++ tr2, ?_, ?_⟩
    · simp only [runOps, hrun1, hrun2, List.append_assoc]
    · intro e he
      rcases List.mem_append.1 he with h1 | h2
      · exact hno1 e h1
      · exact hno2 e h2

theorem setPaused_getElem? (v : Bool) (h : List Obj) (a b : Addr) :
    (setPaused v h a)[b]? =
      if a = b then
        match h[b]? with
        | some (Obj.filter f) => some (Obj.filter { f with nextElementIsPaused_ := v })
        | o => o
      else h[b]? := by
  unfold setPaused
  by_cases hab : a = b
  · subst hab
    simp only [if_true]
    cases ha : h[a]? with
    | none => simp [ha]
    | some o =>
      cases o with
      | handler => simp [ha]
      | filter f => simp [getElem?_set_filter h a a f _ ha]
  · simp only [hab, if_false]
    cases ha : h[a]? with
    | none => rfl
    | some o =>
      cases o with
      | handler => rfl
      | filter f => simp [getElem?_set_filter h a b f _ ha, hab]

theorem setPaused_nextOf (v : Bool) (h : List Obj) (a x : Addr) :
    nextOf (setPaused v h a) x = nextOf h x := by
  unfold nextOf
  rw [setPaused_getElem?]
  by_cases hab : a = x
  · simp only [hab, if_true]
    cases hx : h[x]? with
    | none => rfl
    | some o => cases o <;> rfl
  · simp [hab]

theorem setPaused_prevOf (v : Bool) (h : List Obj) (a x : Addr) :
    prevOf (setPaused v h a) x = prevOf h x := by
  unfold prevOf
  rw [setPaused_getElem?]
  by_cases hab : a = x
  · simp only [hab, if_true]
    cases hx : h[x]? with
    | none => rfl
    | some o => cases o <;> rfl
  · simp [hab]

theorem setPaused_pausedOf_self (v : Bool) (h : List Obj) (a : Addr) (f : HTTPMessageFilter)
    (ha : h[a]? = some (Obj.filter f)) : pausedOf (setPaused v h a) a = some v := by
  unfold pausedOf
  rw [setPaused_getElem?]
  simp [ha]

theorem setPaused_pausedOf_keep (v : Bool) (h : List Obj) (a x : Addr)
    (hx : pausedOf h x = some v) : pausedOf (setPaused v h a) x = some v := by
  unfold pausedOf at hx ⊢
  rw [setPaused_getElem?]
  by_cases hab : a = x
  · simp only [hab, if_true]
    cases hx2 : h[x]? with
    | none => simp [hx2] at hx
    | some o =>
      cases o with
      | handler => simp [hx2] at hx
      | filter f => rfl
  · simp only [hab, if_false]
    exact hx

theorem fwdChain_setPaused (v : Bool) (h : List Obj) (a : Addr) (t : Addr) :
    ∀ l : List Addr, fwdChain h l t = true → fwdChain (setPaused v h a) l t = true
  | [], hw => by
    rw [fwdChain_nil] at hw ⊢
    rw [setPaused_getElem?, hw]
    simp
  | b :: rest, hw => by
    rw [fwdChain_cons] at hw ⊢
    obtain ⟨f, hb, hn, hr⟩ := hw
    have ih := fwdChain_setPaused v h a t rest hr
    rw [setPaused_getElem?, hb]
    by_cases hab : a = b
    · exact ⟨{ f with nextElementIsPaused_ := v }, by simp [hab], hn, ih⟩
    · exact ⟨f, by simp [hab], hn, ih⟩

theorem pause_chain (t : Addr) :
    ∀ (rest : List Addr) (h : List Obj) (a : Addr) (sg : List FlowEv) (fuel : Nat),
      fwdChain h (a :: rest) t = true → rest.length + 2 ≤ fuel →
      ∃ h2, pause fuel a ⟨h, sg⟩ =
          Except.ok ⟨h2, sg ++ (pausedAt (a :: rest) ++ [FlowEv.pause t])⟩ ∧
        (∀ x, pausedOf h x = some true → pausedOf h2 x = some true) ∧
        (∀ b ∈ a :: rest, pausedOf h2 b = some true) ∧
        ∀ x, nextOf h2 x = nextOf h x ∧ prevOf h2 x = prevOf h x
  | [], h, a, sg, fuel, hw, hf => by
    rw [fwdChain_cons] at hw
    obtain ⟨f, ha, hn, hr⟩ := hw
    have hr2 := fwdChain_setPaused true h a t [] hr
    rw [fwdChain_nil] at hr2
    obtain ⟨k, rfl⟩ : ∃ k, fuel = k + 2 := ⟨fuel - 2, by simp at hf; omega⟩
    simp only [List.headD_nil] at hn
    refine ⟨setPaused true h a, ?_, fun x hx => setPaused_pausedOf_keep true h a x hx, ?_,
      fun x => ⟨setPaused_nextOf true h a x, setPaused_prevOf true h a x⟩⟩
    · simp [pause, ha, hn, hr2, pausedAt]
    · intro b hb
      simp only [List.mem_singleton] at hb
      subst hb
      exact setPaused_pausedOf_self true h b f ha
  | b :: rest, h, a, sg, fuel, hw, hf => by
    rw [fwdChain_cons] at hw
    obtain ⟨f, ha, hn, hr⟩ := hw
    have hr2 := fwdChain_setPaused true h a t (b :: rest) hr
    obtain ⟨k, rfl⟩ : ∃ k, fuel = k + 1 := ⟨fuel - 1, by simp at hf; omega⟩
    simp only [List.headD_cons] at hn
    obtain ⟨h2, hrun, hkeep, hall, hsame⟩ :=
      pause_chain t rest (setPaused true h a) b (sg ++ [FlowEv.pause a]) k hr2
        (by simp at hf ⊢; omega)
    refine ⟨h2, ?_, fun x hx => hkeep x (setPaused_pausedOf_keep true h a x hx), ?_, ?_⟩
    · simp only [pause, ha, hn, hrun]
      simp [pausedAt]
    · intro x hx
      rcases List.mem_cons.1 hx with rfl | hx2
      · exact hkeep x (setPaused_pausedOf_self true h x f ha)
      · exact hall x hx2
    · intro x
      rw [(hsame x).1, (hsame x).2]
      exact ⟨setPaused_nextOf true h a x, setPaused_prevOf true h a x⟩

theorem resume_chain (t : Addr) (offset : Nat) :
    ∀ (rest : List Addr) (h : List Obj) (a : Addr) (sg : List FlowEv) (fuel : Nat),
      fwdChain h (a :: rest) t = true → rest.length + 2 ≤ fuel →
      ∃ h2, resume fuel a offset ⟨h, sg⟩ =
          Except.ok ⟨h2, sg ++ (resumedAt (a :: rest) offset ++ [FlowEv.resume t offset])⟩ ∧
        ∀ x, nextOf h2 x = nextOf h x ∧ prevOf h2 x = prevOf h x
  | [], h, a, sg, fuel, hw, hf => by
    rw [fwdChain_cons] at hw
    obtain ⟨f, ha, hn, hr⟩ := hw
    have hr2 := fwdChain_setPaused false h a t [] hr
    rw [fwdChain_nil] at hr2
    obtain ⟨k, rfl⟩ : ∃ k, fuel = k + 2 := ⟨fuel - 2, by simp at hf; omega⟩
    simp only [List.headD_nil] at hn
    refine ⟨setPaused false h a, ?_,
      fun x => ⟨setPaused_nextOf false h a x, setPaused_prevOf false h a x⟩⟩
    simp [resume, ha, hn, hr2, resumedAt]
  | b :: rest, h, a, sg, fuel, hw, hf => by
    rw [fwdChain_cons] at hw
    obtain ⟨f, ha, hn, hr⟩ := hw
    have hr2 := fwdChain_setPaused false h a t (b :: rest) hr
    obtain ⟨k, rfl⟩ : ∃ k, fuel = k + 1 := ⟨fuel - 1, by simp at hf; omega⟩
    simp only [List.headD_cons] at hn
    obtain ⟨h2, hrun, hsame⟩ :=
      resume_chain t offset rest (setPaused false h a) b (sg ++ [FlowEv.resume a offset]) k hr2
        (by simp at hf ⊢; omega)
    refine ⟨h2, ?_, ?_⟩
    · simp only [resume, ha, hn, hrun]
      simp [resumedAt]
    · intro x
      rw [(hsame x).1, (hsame x).2]
      exact ⟨setPaused_nextOf false h a x, setPaused_prevOf false h a x⟩

/-- Forward wiring only reads `nextTransactionHandler_` and the kind of each
object, so it survives every change within `Frame`. -/
theorem fwdChain_frame {h h2 : List Obj} (hfr : Frame h h2) (t : Addr) :
    ∀ l : List Addr, fwdChain h l t = true → fwdChain h2 l t = true
  | [], hw => by
    rw [fwdChain_nil] at hw ⊢
    rcases hfr t with e | ⟨f, _, hf, _, _⟩
    · rw [e]; exact hw
    · rw [hw] at hf; cases hf
  | b :: rest, hw => by
    rw [fwdChain_cons] at hw ⊢
    obtain ⟨f, hb, hn, hr⟩ := hw
    have ih := fwdChain_frame hfr t rest hr
    rcases hfr b with e | ⟨g, _, hg, _, e⟩
    · exact ⟨f, by rw [e]; exact hb, hn, ih⟩
    · rw [hb] at hg
      cases hg
      exact ⟨_, e, hn, ih⟩

/-- `detachTransaction` along a forward-wired chain, whatever the nodes hold in
`prev_`: it returns and enters every node in order, then the terminal handler. -/
theorem detachTransaction_fwd (t : Addr) :
    ∀ (rest : List Addr) (h : List Obj) (a : Addr) (tr : List Ev) (fuel : Nat),
      fwdChain h (a :: rest) t = true → rest.length + 2 ≤ fuel →
      ∃ h2, callHandler fuel a Call.detachTransaction ⟨h, tr⟩ =
        Except.ok ⟨h2, tr ++ (delivered (a :: rest) Call.detachTransaction ++
          [Ev.handler t Call.detachTransaction])⟩
  | [], h, a, tr, fuel, hw, hf => by
    rw [fwdChain_cons] at hw
    obtain ⟨f, ha, hn, hr⟩ := hw
    have hr2 := fwdChain_frame (frame_nullPrev h a) t [] hr
    rw [fwdChain_nil] at hr2
    obtain ⟨k, rfl⟩ : ∃ k, fuel = k + 2 := ⟨fuel - 2, by simp at hf; omega⟩
    refine ⟨nullPrev h a, ?_⟩
    rw [callHandler_detach_step (k + 1) a h tr f t ha (by simpa using hn)]
    rw [callHandler_handler k t _ _ (by simpa using hr2)]
    simp [World.log, delivered]
  | b :: rest, h, a, tr, fuel, hw, hf => by
    rw [fwdChain_cons] at hw
    obtain ⟨f, ha, hn, hr⟩ := hw
    have hr2 := fwdChain_frame (frame_nullPrev h a) t (b :: rest) hr
    obtain ⟨k, rfl⟩ : ∃ k, fuel = k + 1 := ⟨fuel - 1, by simp at hf; omega⟩
    obtain ⟨h2, hrun⟩ := detachTransaction_fwd t rest (nullPrev h a) b
      (tr ++ [Ev.handler a Call.detachTransaction]) k hr2 (by simp at hf ⊢; omega)
    refine ⟨h2, ?_⟩
    rw [callHandler_detach_step k a h tr f b ha (by simpa using hn), hrun]
    simp [delivered]

/-! ## Claims -/

/-- C1: on a chain of N ≥ 1 filters wired through `nextTransactionHandler_`
(node i to node i+1, the last node to the terminal handler), each of the
thirteen pass-through events (every `Handler` method except
`detachTransaction`), with any payload, delivered at the head returns and is
recorded exactly once at each node in chain order and then once at the
terminal handler with the same payload; the heap (every forward reference,
backward reference and paused flag) is unchanged; the chain addresses are
pairwise distinct and differ from the terminal handler. -/
theorem C1_event_forwarded_through_chain (h : List Obj) (a : Addr) (rest : List Addr)
    (t : Addr) (c : Call) (tr : List Ev) (fuel : Nat)
    (hw : fwdChain h (a :: rest) t = true) (hc : c ≠ Call.detachTransaction)
    (hf : rest.length + 2 ≤ fuel) :
    callHandler fuel a c ⟨h, tr⟩ =
        Except.ok ⟨h, tr ++ (delivered (a :: rest) c ++ [Ev.handler t c])⟩ ∧
      (a :: rest).Nodup ∧ t ∉ a :: rest :=
  ⟨callHandler_chain h c hc t rest a tr fuel hw hf, fwdChain_nodup h t (a :: rest) hw⟩

theorem C1_event_forwarded_through_chain_witness :
    fwdChain exampleHeap [0, 1] 2 = true ∧
      callHandler 3 0 (Call.onBody 42) ⟨exampleHeap, []⟩ =
        Except.ok ⟨exampleHeap, [Ev.handler 0 (Call.onBody 42), Ev.handler 1 (Call.onBody 42),
          Ev.handler 2 (Call.onBody 42)]⟩ :=
  ⟨by decide,
    (C1_event_forwarded_through_chain exampleHeap 0 [1] 2 (Call.onBody 42) [] 3
      (by decide) (by decide) (by decide)).1⟩

/-- C2: on a well-formed chain of N ≥ 1 filters whose head holds the
transaction `T` in `prev_` and whose other nodes hold their predecessor filter,
`detachTransaction` called on the head returns, is recorded exactly once at
every node in chain order and then once at the terminal handler, and afterwards
the head's `prev_` is the null transaction pointer; the chain addresses are
pairwise distinct and differ from the terminal handler. -/
theorem C2_detachTransaction_through_chain (h : List Obj) (a : Addr) (rest : List Addr)
    (t : Addr) (T : TxnAddr) (tr : List Ev) (fuel : Nat)
    (hw : wfChain h (Prev.txn (some T)) (a :: rest) t = true)
    (hf : rest.length + 2 ≤ fuel) :
    ∃ w, callHandler fuel a Call.detachTransaction ⟨h, tr⟩ = Except.ok w ∧
      w.trace = tr ++ (delivered (a :: rest) Call.detachTransaction ++
        [Ev.handler t Call.detachTransaction]) ∧
      prevOf w.heap a = some (Prev.txn none) ∧
      (a :: rest).Nodup ∧ t ∉ a :: rest := by
  refine ⟨_, detachTransaction_chain t rest h _ a tr fuel hw hf, rfl, ?_,
    fwdChain_nodup h t _ (wfChain_fwdChain h _ _ t hw)⟩
  rw [wfChain_cons] at hw
  obtain ⟨f, ha, _, hp, _⟩ := hw
  exact prevOf_nullPrev_txn h a f ha _ hp

theorem C2_detachTransaction_through_chain_witness :
    wfChain exampleHeap (Prev.txn (some 7)) [0, 1] 2 = true ∧
      ∃ w, callHandler 3 0 Call.detachTransaction ⟨exampleHeap, []⟩ = Except.ok w ∧
        w.trace = [] ++ (delivered [0, 1] Call.detachTransaction ++
          [Ev.handler 2 Call.detachTransaction]) ∧
        prevOf w.heap 0 = some (Prev.txn none) ∧
        [0, 1].Nodup ∧ 2 ∉ [0, 1] :=
  ⟨by decide,
    C2_detachTransaction_through_chain exampleHeap 0 [1] 2 7 [] 3 (by decide) (by decide)⟩

/-- C3: on a well-formed chain of N ≥ 1 filters whose head holds a non-null
transaction `T` in `prev_` and whose other nodes hold their predecessor filter,
`detachHandlerFromTransaction` called on the last filter returns, is recorded
exactly once at every filter from the last back to the head, then calls
`T.setHandler(nullptr)` exactly once, and afterwards the head's `prev_` is the
null transaction pointer; the chain addresses are pairwise distinct. -/
theorem C3_detachHandler_backward_through_chain (h : List Obj) (a : Addr)
    (rest : List Addr) (t : Addr) (T : TxnAddr) (tr : List Ev) (fuel : Nat)
    (hw : wfChain h (Prev.txn (some T)) (a :: rest) t = true)
    (hf : rest.length + 1 ≤ fuel) :
    ∃ w, detachHandlerFromTransaction fuel ((a :: rest).getLast (List.cons_ne_nil a rest))
        ⟨h, tr⟩ = Except.ok w ∧
      w.trace = tr ++ (detachedAt (a :: rest).reverse ++ [Ev.setHandler T none]) ∧
      prevOf w.heap a = some (Prev.txn none) ∧ (a :: rest).Nodup := by
  have hsplit := List.dropLast_append_getLast (List.cons_ne_nil a rest)
  have hw2 : wfChain h (Prev.txn (some T))
      ((a :: rest).dropLast ++ (a :: rest).getLast (List.cons_ne_nil a rest) :: []) t = true := by
    rw [hsplit]; exact hw
  have h0 : ((a :: rest).dropLast ++ (a :: rest).getLast (List.cons_ne_nil a rest) :: []).head?
      = some a := by
    rw [hsplit]; rfl
  have hrun := detachHandler_wf h (some T) t _ _ [] a tr fuel hw2 h0
    (by simp at hf ⊢; omega)
  refine ⟨_, hrun, ?_, ?_, (fwdChain_nodup h t _ (wfChain_fwdChain h _ _ t hw)).1⟩
  · have hrev : (a :: rest).getLast (List.cons_ne_nil a rest) :: (a :: rest).dropLast.reverse
        = (a :: rest).reverse := by
      conv_rhs => rw [← hsplit]
      simp
    simp only [hrev, txnCalls]
  · rw [wfChain_cons] at hw
    obtain ⟨f, ha, _, hp, _⟩ := hw
    exact prevOf_nullPrev_txn h a f ha _ hp

theorem C3_detachHandler_backward_through_chain_witness :
    wfChain exampleHeap (Prev.txn (some 7)) [0, 1] 2 = true ∧
      ∃ w, detachHandlerFromTransaction 2 1 ⟨exampleHeap, []⟩ = Except.ok w ∧
        w.trace = [] ++ (detachedAt [1, 0] ++ [Ev.setHandler 7 none]) ∧
        prevOf w.heap 0 = some (Prev.txn none) ∧ [0, 1].Nodup :=
  ⟨by decide,
    C3_detachHandler_backward_through_chain exampleHeap 0 [1] 2 7 [] 2 (by decide) (by decide)⟩

/-- C4: on a well-formed chain whose head holds the transaction `T`, after
`detachTransaction` has been delivered at the head, and likewise after
`detachHandlerFromTransaction` has been called on any node `b` of the chain,
every later sequence of `Handler` calls (events and `detachTransaction`) and
`detachHandlerFromTransaction` calls on nodes of the chain returns and records
no call on a transaction; in particular `setHandler` is not invoked again. -/
theorem C4_no_transaction_call_after_detach (h : List Obj) (a : Addr) (rest : List Addr)
    (t : Addr) (T : TxnAddr) (b : Addr) (ops : List Op) (fuel : Nat)
    (hw : wfChain h (Prev.txn (some T)) (a :: rest) t = true)
    (hb : b ∈ a :: rest)
    (hops : ∀ op ∈ ops, onChain (a :: rest) op = true)
    (hf : rest.length + 2 ≤ fuel) :
    (∃ w1 w2, callHandler fuel a Call.detachTransaction ⟨h, []⟩ = Except.ok w1 ∧
        runOps fuel ops ⟨w1.heap, []⟩ = Except.ok w2 ∧ ∀ e ∈ w2.trace, e.onTxn = false) ∧
      (∃ w1 w2, detachHandlerFromTransaction fuel b ⟨h, []⟩ = Except.ok w1 ∧
        runOps fuel ops ⟨w1.heap, []⟩ = Except.ok w2 ∧ ∀ e ∈ w2.trace, e.onTxn = false) := by
  have hdet := wfChain_nullPrev_head h _ a rest t hw
  obtain ⟨tr2, hrun2, hno2⟩ :=
    runOps_detached (nullPrev h a) (a :: rest) t hdet fuel (by simpa using hf) ops [] hops
  constructor
  · exact ⟨_, _, detachTransaction_chain t rest h _ a [] fuel hw hf, hrun2,
      by simpa using hno2⟩
  · obtain ⟨pre, post, hsplit⟩ := List.append_of_mem hb
    have hw2 := hw
    rw [hsplit] at hw2
    have h0 : (pre ++ b :: post).head? = some a := by rw [← hsplit]; rfl
    have hlen : pre.length + 1 ≤ fuel := by
      have := congrArg List.length hsplit
      simp at this
      omega
    exact ⟨_, _, detachHandler_wf h _ t pre b post a [] fuel hw2 h0 hlen, hrun2,
      by simpa using hno2⟩

theorem C4_no_transaction_call_after_detach_witness :
    wfChain exampleHeap (Prev.txn (some 7)) [0, 1] 2 = true ∧
      (∃ w1 w2, callHandler 3 0 Call.detachTransaction ⟨exampleHeap, []⟩ = Except.ok w1 ∧
        runOps 3 [Op.detachHandlerFromTransaction 1, Op.call 0 (Call.onBody 5),
          Op.call 1 Call.detachTransaction] ⟨w1.heap, []⟩ = Except.ok w2 ∧
        ∀ e ∈ w2.trace, e.onTxn = false) :=
  ⟨by decide,
    (C4_no_transaction_call_after_detach exampleHeap 0 [1] 2 7 1
      [Op.detachHandlerFromTransaction 1, Op.call 0 (Call.onBody 5),
        Op.call 1 Call.detachTransaction] 3 (by decide) (by decide) (by decide)
      (by decide)).1⟩

/-- C5 fails as stated: on the two-filter chain a second `detachTransaction` on
the head, made after the first returned, is entered again at the second filter
and at the terminal handler. -/
theorem C5_second_detachTransaction_counterexample :
    ∃ w1 w2, callHandler 3 0 Call.detachTransaction ⟨exampleHeap, []⟩ = Except.ok w1 ∧
      callHandler 3 0 Call.detachTransaction ⟨w1.heap, []⟩ = Except.ok w2 ∧
      Ev.handler 1 Call.detachTransaction ∈ w2.trace ∧
      Ev.handler 2 Call.detachTransaction ∈ w2.trace :=
  ⟨⟨nullPrev exampleHeap 0, delivered [0, 1] Call.detachTransaction ++
      [Ev.handler 2 Call.detachTransaction]⟩,
    ⟨nullPrev exampleHeap 0, delivered [0, 1] Call.detachTransaction ++
      [Ev.handler 2 Call.detachTransaction]⟩,
    rfl, rfl, by decide, by decide⟩

/-- C5 (amended): on a well-formed chain, a second `detachTransaction` on the
head, made after a first call returned, returns, leaves the whole heap
unchanged and records no call on the transaction, but it is forwarded again:
it is entered once more at every node in chain order and at the terminal
handler. -/
theorem C5_second_detachTransaction_keeps_state (h : List Obj) (a : Addr)
    (rest : List Addr) (t : Addr) (T : TxnAddr) (tr : List Ev) (fuel : Nat)
    (hw : wfChain h (Prev.txn (some T)) (a :: rest) t = true)
    (hf : rest.length + 2 ≤ fuel) :
    ∃ w1, callHandler fuel a Call.detachTransaction ⟨h, tr⟩ = Except.ok w1 ∧
      callHandler fuel a Call.detachTransaction ⟨w1.heap, []⟩ =
        Except.ok ⟨w1.heap, delivered (a :: rest) Call.detachTransaction ++
          [Ev.handler t Call.detachTransaction]⟩ := by
  have hdet := wfChain_nullPrev_head h _ a rest t hw
  refine ⟨_, detachTransaction_chain t rest h _ a tr fuel hw hf, ?_⟩
  have h2 := detachTransaction_chain t rest (nullPrev h a) _ a [] fuel hdet hf
  rw [nullPrev_detached (nullPrev h a) t [] a rest hdet] at h2
  simpa using h2

theorem C5_second_detachTransaction_keeps_state_witness :
    wfChain exampleHeap (Prev.txn (some 7)) [0, 1] 2 = true ∧
      ∃ w1, callHandler 3 0 Call.detachTransaction ⟨exampleHeap, []⟩ = Except.ok w1 ∧
        callHandler 3 0 Call.detachTransaction ⟨w1.heap, []⟩ =
          Except.ok ⟨w1.heap, delivered [0, 1] Call.detachTransaction ++
            [Ev.handler 2 Call.detachTransaction]⟩ :=
  ⟨by decide,
    C5_second_detachTransaction_keeps_state exampleHeap 0 [1] 2 7 [] 3 (by decide)
      (by decide)⟩

/-- C6: on a well-formed chain, after `detachHandlerFromTransaction` on the last
filter has returned, a second `detachHandlerFromTransaction` on any node `b` of
the chain returns, leaves the whole heap (every forward reference, backward
reference and paused flag) unchanged and records no call on the transaction. -/
theorem C6_second_detachHandler_noop (h : List Obj) (a : Addr) (rest : List Addr)
    (t : Addr) (T : TxnAddr) (b : Addr) (tr : List Ev) (fuel : Nat)
    (hw : wfChain h (Prev.txn (some T)) (a :: rest) t = true)
    (hb : b ∈ a :: rest) (hf : rest.length + 2 ≤ fuel) :
    ∃ w1, detachHandlerFromTransaction fuel ((a :: rest).getLast (List.cons_ne_nil a rest))
        ⟨h, tr⟩ = Except.ok w1 ∧
      ∃ tr2, detachHandlerFromTransaction fuel b ⟨w1.heap, []⟩ = Except.ok ⟨w1.heap, tr2⟩ ∧
        ∀ e ∈ tr2, e.onTxn = false := by
  have hsplit := List.dropLast_append_getLast (List.cons_ne_nil a rest)
  have hw2 : wfChain h (Prev.txn (some T))
      ((a :: rest).dropLast ++ (a :: rest).getLast (List.cons_ne_nil a rest) :: []) t = true := by
    rw [hsplit]; exact hw
  have h0 : ((a :: rest).dropLast ++ (a :: rest).getLast (List.cons_ne_nil a rest) :: []).head?
      = some a := by
    rw [hsplit]; rfl
  have hrun := detachHandler_wf h (some T) t _ _ [] a tr fuel hw2 h0
    (by simp at hf ⊢; omega)
  refine ⟨_, hrun, ?_⟩
  have hdet := wfChain_nullPrev_head h _ a rest t hw
  obtain ⟨tr2, hrun2, hno2⟩ := runOp_detached (nullPrev h a) (a :: rest) t hdet
    (Op.detachHandlerFromTransaction b) (by simpa [onChain] using hb) [] fuel
    (by simpa using hf)
  exact ⟨tr2, by simpa [runOp] using hrun2, hno2⟩

theorem C6_second_detachHandler_noop_witness :
    wfChain exampleHeap (Prev.txn (some 7)) [0, 1] 2 = true ∧
      ∃ w1, detachHandlerFromTransaction 3 1 ⟨exampleHeap, []⟩ = Except.ok w1 ∧
        ∃ tr2, detachHandlerFromTransaction 3 0 ⟨w1.heap, []⟩ = Except.ok ⟨w1.heap, tr2⟩ ∧
          ∀ e ∈ tr2, e.onTxn = false :=
  ⟨by decide,
    C6_second_detachHandler_noop exampleHeap 0 [1] 2 7 0 [] 3 (by decide) (by decide)
      (by decide)⟩

/-- C7: on every heap, at every address `b`, with every fuel: whenever
`detachTransaction` or `detachHandlerFromTransaction` called on `b` returns,
every cell of the heap is either unchanged or a filter whose `prev_` held a
non-null transaction pointer and now holds the null one, with the same forward
reference and paused flag; so no forward reference, no paused flag and no
filter-tagged `prev_` changes, and a `prev_` that changes held the transaction
and becomes null.  Both operations do return: `detachTransaction` on every
node of every forward-wired chain, whatever the nodes hold in `prev_`, and
`detachHandlerFromTransaction` on every node from which the filter-tagged
`prev_` pointers lead to a node with a transaction-tagged `prev_`, in
particular on every node of a well-formed chain. -/
theorem C7_detach_frame (h : List Obj) (b : Addr) (tr : List Ev) (fuel : Nat) :
    (∀ w, (callHandler fuel b Call.detachTransaction ⟨h, tr⟩ = Except.ok w ∨
          detachHandlerFromTransaction fuel b ⟨h, tr⟩ = Except.ok w) →
        Frame h w.heap ∧
        ∀ x, nextOf w.heap x = nextOf h x ∧ pausedOf w.heap x = pausedOf h x ∧
          (∀ p, prevOf h x = some (Prev.filter p) → prevOf w.heap x = some (Prev.filter p)) ∧
          (prevOf w.heap x = prevOf h x ∨
            ∃ T, prevOf h x = some (Prev.txn (some T)) ∧
              prevOf w.heap x = some (Prev.txn none))) ∧
      (∀ (a : Addr) (rest : List Addr) (t : Addr), fwdChain h (a :: rest) t = true →
        b ∈ a :: rest → rest.length + 2 ≤ fuel →
        ∃ w, callHandler fuel b Call.detachTransaction ⟨h, tr⟩ = Except.ok w) ∧
      (∀ (l : List Addr) (o : Option TxnAddr), bwdChain h (Prev.txn o) (b :: l) = true →
        l.length + 1 ≤ fuel →
        ∃ w, detachHandlerFromTransaction fuel b ⟨h, tr⟩ = Except.ok w) ∧
      (∀ (a : Addr) (rest : List Addr) (t : Addr) (o : Option TxnAddr),
        wfChain h (Prev.txn o) (a :: rest) t = true → b ∈ a :: rest →
        rest.length + 2 ≤ fuel →
        ∃ w, detachHandlerFromTransaction fuel b ⟨h, tr⟩ = Except.ok w) := by
  refine ⟨?_, ?_, ?_, ?_⟩
  · intro w hrun
    have hfr : Frame h w.heap := by
      rcases hrun with hc | hd
      · exact callHandler_frame fuel b _ h tr w hc
      · exact detachHandler_frame fuel b h tr w hd
    refine ⟨hfr, fun x => ⟨frame_nextOf hfr x, frame_pausedOf hfr x, fun p hp => ?_,
      frame_prevOf hfr x⟩⟩
    rcases frame_prevOf hfr x with e | ⟨T, hT, _⟩
    · rw [e]; exact hp
    · rw [hp] at hT; cases hT
  · intro a rest t hw hb hf
    obtain ⟨pre, post, hsplit⟩ := List.append_of_mem hb
    have hlen := congrArg List.length hsplit
    simp at hlen
    rw [hsplit] at hw
    obtain ⟨h2, hrun⟩ := detachTransaction_fwd t post h b tr fuel
      (fwdChain_suffix h t _ pre hw) (by omega)
    exact ⟨_, hrun⟩
  · intro l o hbw hf
    obtain ⟨a0, h0⟩ : ∃ a0, (b :: l).getLast? = some a0 :=
      ⟨(b :: l).getLast (List.cons_ne_nil b l), List.getLast?_eq_getLast _ _⟩
    exact ⟨_, detachHandler_bwd h o a0 l b tr fuel hbw h0 hf⟩
  · intro a rest t o hw hb hf
    obtain ⟨pre, post, hsplit⟩ := List.append_of_mem hb
    have hlen := congrArg List.length hsplit
    simp at hlen
    rw [hsplit] at hw
    have h0 : (pre ++ b :: post).head? = some a := by rw [← hsplit]; rfl
    exact ⟨_, detachHandler_wf h o t pre b post a tr fuel hw h0 (by omega)⟩

theorem C7_detach_frame_witness :
    fwdChain twoTxnHeap [0, 1] 2 = true ∧
      wfChain twoTxnHeap (Prev.txn (some 7)) [0, 1] 2 = false ∧
      bwdChain twoTxnHeap (Prev.txn (some 7)) [1] = true ∧
      (∃ w, callHandler 3 0 Call.detachTransaction ⟨twoTxnHeap, []⟩ = Except.ok w ∧
        Frame twoTxnHeap w.heap) ∧
      ∃ w, detachHandlerFromTransaction 3 1 ⟨twoTxnHeap, []⟩ = Except.ok w ∧
        Frame twoTxnHeap w.heap :=
  ⟨by decide, by decide, by decide,
    let ⟨w, hrun⟩ :=
      (C7_detach_frame twoTxnHeap 0 [] 3).2.1 0 [1] 2 (by decide) (by decide) (by decide)
    ⟨w, hrun, ((C7_detach_frame twoTxnHeap 0 [] 3).1 w (Or.inl hrun)).1⟩,
    let ⟨w, hrun⟩ :=
      (C7_detach_frame twoTxnHeap 1 [] 3).2.2.1 [] (some 7) (by decide) (by decide)
    ⟨w, hrun, ((C7_detach_frame twoTxnHeap 1 [] 3).1 w (Or.inr hrun)).1⟩⟩

/-- C8 fails as stated: `detachTransaction` delivered to a freshly constructed
filter, whose `nextTransactionHandler_` is still null, returns normally and
forwards nothing. -/
theorem C8_detachTransaction_unwired_counterexample :
    nextOf (construct ⟨[], []⟩).heap 0 = some none ∧
      callHandler 1 0 Call.detachTransaction (construct ⟨[], []⟩) =
        Except.ok ⟨[Obj.filter HTTPMessageFilter.init],
          [Ev.handler 0 Call.detachTransaction]⟩ :=
  ⟨rfl, rfl⟩

/-- C8 (amended): on a filter whose `nextTransactionHandler_` is null, every
`Handler` method other than `detachTransaction` does not return: its unguarded
call through the null pointer is a null dereference, whatever the fuel, so the
event is not silently dropped; `detachTransaction` tests the pointer, returns
normally, and forwards nothing (only its own entry is recorded). -/
theorem C8_unwired_forward_target (fuel : Nat) (a : Addr) (c : Call) (w : World)
    (f : HTTPMessageFilter) (ha : w.heap[a]? = some (Obj.filter f))
    (hn : f.nextTransactionHandler_ = none) :
    (c ≠ Call.detachTransaction →
        callHandler (fuel + 1) a c w = Except.error Fault.nullDeref) ∧
      callHandler (fuel + 1) a Call.detachTransaction w =
        Except.ok ⟨nullPrev w.heap a, w.trace ++ [Ev.handler a Call.detachTransaction]⟩ :=
  ⟨fun hc => callHandler_unwired fuel a c w f hc ha hn,
    callHandler_detach_unwired fuel a w.heap w.trace f ha hn⟩

theorem C8_unwired_forward_target_witness :
    callHandler 6 0 Call.onEOM ⟨[Obj.filter HTTPMessageFilter.init], []⟩ =
      Except.error Fault.nullDeref :=
  (C8_unwired_forward_target 5 0 Call.onEOM ⟨[Obj.filter HTTPMessageFilter.init], []⟩
    HTTPMessageFilter.init rfl rfl).1 (by decide)

/-- C9: with the default `pause()` and `resume(offset)` on every node of a chain
of N ≥ 1 filters, `pause()` at the head returns, is recorded once at each node
in chain order and then at the terminal handler, leaves every node of the
chain with `nextElementIsPaused_` true (a freshly constructed node has it
false) and changes no forward or backward reference; `resume(offset)` at the
head returns and is recorded once at each node in chain order and then at the
terminal handler, every time with the same offset. -/
theorem C9_pause_resume_default (h : List Obj) (a : Addr) (rest : List Addr) (t : Addr)
    (offset : Nat) (sg : List FlowEv) (fuel : Nat)
    (hw : fwdChain h (a :: rest) t = true) (hf : rest.length + 2 ≤ fuel) :
    HTTPMessageFilter.init.nextElementIsPaused_ = false ∧
      (∃ h2, pause fuel a ⟨h, sg⟩ =
          Except.ok ⟨h2, sg ++ (pausedAt (a :: rest) ++ [FlowEv.pause t])⟩ ∧
        (∀ b ∈ a :: rest, pausedOf h2 b = some true) ∧
        ∀ x, nextOf h2 x = nextOf h x ∧ prevOf h2 x = prevOf h x) ∧
      ∃ h3, resume fuel a offset ⟨h, sg⟩ =
        Except.ok ⟨h3, sg ++ (resumedAt (a :: rest) offset ++ [FlowEv.resume t offset])⟩ := by
  obtain ⟨h2, hrun, _, hall, hsame⟩ := pause_chain t rest h a sg fuel hw hf
  obtain ⟨h3, hrun3, _⟩ := resume_chain t offset rest h a sg fuel hw hf
  exact ⟨rfl, ⟨h2, hrun, hall, hsame⟩, ⟨h3, hrun3⟩⟩

theorem C9_pause_resume_default_witness :
    fwdChain exampleHeap [0, 1] 2 = true ∧
      ∃ h2, pause 3 0 ⟨exampleHeap, []⟩ =
          Except.ok ⟨h2, [] ++ (pausedAt [0, 1] ++ [FlowEv.pause 2])⟩ ∧
        (∀ b ∈ [0, 1], pausedOf h2 b = some true) ∧
        ∀ x, nextOf h2 x = nextOf exampleHeap x ∧ prevOf h2 x = prevOf exampleHeap x :=
  ⟨by decide,
    (C9_pause_resume_default exampleHeap 0 [1] 2 0 [] 3 (by decide) (by decide)).2.1⟩

/-- C10: every operation of a filter node that returns (construction, the three
setters, every `Handler` call including `detachTransaction`, and
`detachHandlerFromTransaction`) keeps the representation invariant `repInv`
(no filter holds a null pointer in the filter alternative of `prev_`, so the
null test on the filter branch of `detachHandlerFromTransaction` cannot fail
and "absent" is only the null transaction pointer) and keeps every non-null
forward pointer non-null; the empty heap satisfies `repInv`; each of the three
setters called with a null argument on a filter fails with the fatal check;
and after a `setNextTransactionHandler` that returned the forward pointer is
non-null. -/
theorem C10_representation_invariant (op : Op) (fuel : Nat) (w w2 : World)
    (hrun : runOp fuel op w = Except.ok w2) :
    (repInv w.heap = true →
        repInv w2.heap = true ∧
          ∀ (b : Addr) (f : HTTPMessageFilter) (x : Option Addr),
            w2.heap[b]? = some (Obj.filter f) → f.prev_ = Prev.filter x → ∃ p, x = some p) ∧
      (∀ b n, nextOf w.heap b = some (some n) → ∃ n2, nextOf w2.heap b = some (some n2)) ∧
      repInv [] = true ∧
      (∀ (b : Addr) (f : HTTPMessageFilter), w.heap[b]? = some (Obj.filter f) →
        setNextTransactionHandler b none w = Except.error Fault.checkFailed ∧
        setPrevFilter b none w = Except.error Fault.checkFailed ∧
        setPrevTxn b none w = Except.error Fault.checkFailed) ∧
      (∀ (b : Addr) (next : Option Addr) (w3 : World),
        setNextTransactionHandler b next w = Except.ok w3 →
          ∃ n, nextOf w3.heap b = some (some n)) := by
  obtain ⟨hinv, hnext⟩ := runOp_invariant op fuel w w2 hrun
  refine ⟨fun hi => ⟨hinv hi, ?_⟩, hnext, rfl, ?_, ?_⟩
  · intro b f x hb hp
    have := (repInv_iff w2.heap).1 (hinv hi) b f hb
    cases x with
    | none => exact absurd hp this
    | some p => exact ⟨p, rfl⟩
  · intro b f hb
    simp [setNextTransactionHandler, setPrevFilter, setPrevTxn, hb, CHECK_NOTNULL]
  · intro b next w3 hset
    simp only [setNextTransactionHandler] at hset
    cases hb : w.heap[b]? with
    | none => simp [hb] at hset
    | some o =>
      cases o with
      | handler => simp [hb] at hset
      | filter f =>
        cases next with
        | none => simp [hb, CHECK_NOTNULL] at hset
        | some n =>
          simp only [hb, CHECK_NOTNULL, World.store, Except.ok.injEq] at hset
          subst hset
          refine ⟨n, ?_⟩
          simp [nextOf, getElem?_set_filter w.heap b b f _ hb]

theorem C10_representation_invariant_witness :
    runOp 3 (Op.call 0 Call.detachTransaction) ⟨exampleHeap, []⟩ =
        Except.ok ⟨nullPrev exampleHeap 0,
          delivered [0, 1] Call.detachTransaction ++ [Ev.handler 2 Call.detachTransaction]⟩ ∧
      repInv exampleHeap = true ∧ repInv (nullPrev exampleHeap 0) = true :=
  ⟨rfl, by decide,
    ((C10_representation_invariant (Op.call 0 Call.detachTransaction) 3 ⟨exampleHeap, []⟩
      ⟨nullPrev exampleHeap 0,
        delivered [0, 1] Call.detachTransaction ++ [Ev.handler 2 Call.detachTransaction]⟩
      rfl).1 (by decide)).1⟩

end Proxygen
